import Mathlib

/-!
Shallow embedding of `presidio_placeholder_anonymizer.py`.

Python strings are modelled as `List Char` (`Str`), Python dicts as
insertion-ordered association lists (`dictLookup` / `dictInsert` reproduce
`d[k]` reads and `d[k] = v` writes: an existing key is updated in place, a
fresh key is appended at the end, and iteration follows list order, exactly
like the insertion-ordered iteration of Python dicts).
-/

set_option maxHeartbeats 1000000
set_option synthInstance.maxHeartbeats 400000

abbrev Str : Type := List Char

/-- Lookup in an insertion-ordered dict (`d[k]` / `k in d`): first entry with
the given key, `none` when absent. -/
def dictLookup {α : Type} : List (Str × α) → Str → Option α
  | [], _ => none
  | (k, v) :: rest, key => if k = key then some v else dictLookup rest key

/-- Dict assignment `d[key] = val`: update the existing entry in place, or
append a fresh entry at the end, as Python dicts do. -/
def dictInsert {α : Type} : List (Str × α) → Str → α → List (Str × α)
  | [], key, val => [(key, val)]
  | (k, v) :: rest, key, val =>
      if k = key then (key, val) :: rest else (k, v) :: dictInsert rest key val

/-- Inner dict of one entity type: original value to placeholder. -/
abbrev InnerMapping : Type := List (Str × Str)

/-- The entity mapping store: entity type to inner mapping
(`entity_mapping` in the source). -/
abbrev EntityMapping : Type := List (Str × InnerMapping)

/-- Decimal digits of `n / 10^k`-style recursion, fuel-bounded so that the
kernel can evaluate it (`fuel` at least the number of digits). Mirrors what
Python `str(index)` produces for a positive integer. -/
def toDigitsAux : Nat → Nat → Str
  | 0, _ => []
  | fuel + 1, n => if n = 0 then [] else toDigitsAux fuel (n / 10) ++ [Nat.digitChar (n % 10)]

/-- Python `str(n)` for a natural number `n`: its decimal representation. -/
def natRepr (n : Nat) : Str :=
  if n = 0 then ['0'] else toDigitsAux n n

/-- `REPLACING_FORMAT = "<{entity_type}_{index}>"` applied to
`entity_type` and `index`: literal `<`, the entity type, literal `_`, the
decimal index, literal `>`. -/
def replacingFormat (entity_type : Str) (index : Nat) : Str :=
  '<' :: (entity_type ++ '_' :: natRepr index) ++ ['>']

/-- The `params` dict handed to the operator: the two keys the source reads.
An absent key is `none`; `params = None` (or the empty dict, which is falsy
in `if not params`) is modelled by `Option Params` being `none` or both
fields being `none`. -/
structure Params where
  entity_mapping : Option EntityMapping
  entity_type : Option Str

/-- The two exception kinds `operate` / `validate` can raise:
`ValueError` for a missing `entity_mapping`, `KeyError` for a missing
`entity_type`. -/
inductive OpError : Type where
  | missingEntityMapping : OpError
  | missingEntityType : OpError
deriving DecidableEq, Repr

/-- Write `entity_mapping[entity_type][text] = placeholder` (the entity type
is present whenever the source executes this statement). -/
def dictSetInner (em : EntityMapping) (entity_type k v : Str) : EntityMapping :=
  dictInsert em entity_type (dictInsert ((dictLookup em entity_type).getD []) k v)

/-- `PlaceholderAnonymizer.operate`: returns the placeholder for `text`
together with the updated `entity_mapping` (the source mutates the dict in
place; the functional embedding returns the post-state). -/
def operate (text : Str) (params : Option Params) : Except OpError (Str × EntityMapping) :=
  match params with
  | none => .error .missingEntityMapping
  | some p =>
    match p.entity_mapping with
    | none => .error .missingEntityMapping
    | some entity_mapping =>
      match p.entity_type with
      | none => .error .missingEntityType
      | some entity_type =>
        match dictLookup entity_mapping entity_type with
        | none =>
            let entity_mapping' := dictInsert entity_mapping entity_type []
            let index := 0
            let placeholder := replacingFormat entity_type index
            .ok (placeholder, dictSetInner entity_mapping' entity_type text placeholder)
        | some inner =>
            match dictLookup inner text with
            | some existing => .ok (existing, entity_mapping)
            | none =>
                let index := inner.length
                let placeholder := replacingFormat entity_type index
                .ok (placeholder, dictSetInner entity_mapping entity_type text placeholder)

/-- `PlaceholderAnonymizer.validate`: checks the two required params. -/
def validate (params : Option Params) : Except OpError Unit :=
  match params with
  | none => .error .missingEntityMapping
  | some p =>
    match p.entity_mapping with
    | none => .error .missingEntityMapping
    | some _ =>
      match p.entity_type with
      | none => .error .missingEntityType
      | some _ => .ok ()

/-- The allocator as the spec names it: `operate` with both required params
present. It never takes the error branch (proved below), so the default is
irrelevant. -/
def allocate (em : EntityMapping) (entity_type text : Str) : Str × EntityMapping :=
  match operate text (some ⟨some em, some entity_type⟩) with
  | .ok r => r
  | .error _ => ([], em)

/-- Run a sequence of allocator calls (entity type, original value) from a
given store. -/
def runAlloc (em : EntityMapping) : List (Str × Str) → EntityMapping
  | [] => em
  | c :: rest => runAlloc (allocate em c.1 c.2).2 rest

/-- One detector result: entity type plus the span `[start, stop)` in the raw
text (the detected text is the corresponding slice). -/
structure Detection where
  entity_type : Str
  start : Nat
  stop : Nat

/-- Python slice `s[a:b]`. -/
def sliceStr (s : Str) (a b : Nat) : Str := (s.take b).drop a

/-- Modelled from the spec: the forward substitution pass. The span
replacement itself is performed by the external presidio `AnonymizerEngine`
(not part of this repository); per the spec it processes the detections in
detector order, obtains each placeholder from the allocator applied to the
detected substring, and splices the placeholder over the detected span using
the detector-provided offsets. `pos` is the cursor behind the last processed
span; the store threads through the allocator calls exactly as
`entity_mapping` does in `anonymize_text`. -/
def anonymizeFrom (raw : Str) (pos : Nat) (em : EntityMapping) :
    List Detection → Str × EntityMapping
  | [] => (raw.drop pos, em)
  | d :: rest =>
      let detText := sliceStr raw d.start d.stop
      let r1 := allocate em d.entity_type detText
      let r2 := anonymizeFrom raw d.stop r1.2 rest
      (sliceStr raw pos d.start ++ r1.1 ++ r2.1, r2.2)

/-- Modelled from the spec: `anonymize(raw_text, detections)` starts from an
empty store (`entity_mapping = {}` in `anonymize_text`) and position 0. -/
def anonymize (raw : Str) (dets : List Detection) : Str × EntityMapping :=
  anonymizeFrom raw 0 [] dets

/-- Does `s` start with `p`? (Python `startswith`, used to express the
left-to-right scan of `str.replace`.) -/
def begMatch : Str → Str → Bool
  | [], _ => true
  | _ :: _, [] => false
  | p :: ps, c :: rest => p = c && begMatch ps rest

/-- Python `s.replace(old, new)` for empty `old`: `new` is inserted at every
character boundary. -/
def pyReplaceEmpty (rep : Str) : Str → Str
  | [] => rep
  | c :: rest => rep ++ c :: pyReplaceEmpty rep rest

/-- Python `s.replace(old, new)` for non-empty `old`: scan left to right,
replace each non-overlapping occurrence, continue after it. Fuel-bounded
(structural) so that the kernel can evaluate it; `fuel` at least the length
of the scanned string makes it exact (the pattern is non-empty, so each step
strictly shortens the rest). -/
def pyReplaceAux (pat rep : Str) : Nat → Str → Str
  | _, [] => []
  | 0, s => s
  | fuel + 1, c :: rest =>
      if begMatch pat (c :: rest)
      then rep ++ pyReplaceAux pat rep fuel ((c :: rest).drop pat.length)
      else c :: pyReplaceAux pat rep fuel rest

/-- Python `s.replace(pat, rep)`. -/
def pyReplace (s pat rep : Str) : Str :=
  match pat with
  | [] => pyReplaceEmpty rep s
  | _ :: _ => pyReplaceAux pat rep s.length s

/-- Python `pat in s`: does `pat` occur as a contiguous substring of `s`? -/
def containsSub (s pat : Str) : Bool :=
  (List.range (s.length + 1)).any fun i => begMatch pat (s.drop i)

/-- Build the flat reverse mapping of `deanonymize_text`:
`for entity_type, original_map in entity_mapping.items():
   for original_value, placeholder in original_map.items():
     reverse_map[placeholder] = original_value`. -/
def buildReverseMap (em : EntityMapping) : List (Str × Str) :=
  em.foldl (fun acc p => p.2.foldl (fun acc2 q => dictInsert acc2 q.2 q.1) acc) []

/-- Apply the `(placeholder, original_value)` pairs of `rm` as successive
global string replacements, in list order (the iteration order of
`reverse_map.items()`). -/
def applyReplacements (t : Str) (rm : List (Str × Str)) : Str :=
  rm.foldl (fun acc q => pyReplace acc q.1 q.2) t

/-- Core of `deanonymize_text` once the mapping file has been read: build the
reverse map and replace every placeholder occurrence by its original value. -/
def deanonymize_text (input_text : Str) (entity_mapping : EntityMapping) : Str :=
  applyReplacements input_text (buildReverseMap entity_mapping)

/-- Convenience: the placeholder stored for `(entity_type, original value)`,
when present (`entity_mapping[entity_type][v]`). -/
def lookupInner (em : EntityMapping) (entity_type v : Str) : Option Str :=
  match dictLookup em entity_type with
  | none => none
  | some inner => dictLookup inner v

/-- Value of a decimal digit character. -/
def digitVal (c : Char) : Nat := c.toNat - 48

/-- Read a digit string back as a number (most significant first). -/
def evalDigits (s : Str) : Nat := s.foldl (fun acc c => acc * 10 + digitVal c) 0

/-- A string of the form `<mid>` where `mid` contains no angle bracket. Every
placeholder built from an angle-bracket-free entity type is shaped, and two
distinct shaped tokens can never overlap in a text. -/
def Shaped (s : Str) : Prop :=
  ∃ mid, s = '<' :: mid ++ ['>'] ∧ '<' ∉ mid ∧ '>' ∉ mid

/-- A text piece: `(true, s)` marks a placeholder occurrence, `(false, s)` a
literal segment. -/
abbrev Piece : Type := Bool × Str

/-- Concatenate the pieces back into a text. -/
def flatPieces : List Piece → Str
  | [] => []
  | q :: rest => q.2 ++ flatPieces rest

/-- Well-formed decomposition: placeholder pieces are shaped, literal pieces
contain no `<`. -/
def PiecesOk (ps : List Piece) : Prop :=
  ∀ q ∈ ps, (q.1 = true → Shaped q.2) ∧ (q.1 = false → '<' ∉ q.2)

/-- Effect of one global replacement on a piece. -/
def stepPiece (pat rep : Str) (q : Piece) : Piece :=
  if q.1 = true ∧ q.2 = pat then (false, rep) else q

/-- Effect of a whole replacement table on a piece. -/
def stepAll (rm : List (Str × Str)) (q : Piece) : Piece :=
  if q.1 = true then
    match dictLookup rm q.2 with
    | some rep => (false, rep)
    | none => q
  else q

/-- Structural invariant of every store reachable from the empty store: outer
keys are distinct, inner keys are distinct, and the entry at position `i` of
the inner mapping of entity type `et` carries exactly the placeholder
`<et_i>`. -/
def StoreInv (em : EntityMapping) : Prop :=
  (em.map Prod.fst).Nodup ∧
  ∀ p ∈ em, (p.2.map Prod.fst).Nodup ∧
    ∀ i : Fin p.2.length, (p.2.get i).2 = replacingFormat p.1 i.val

/-- The store only grows: every stored binding survives an allocator call. -/
def StoreLe (em em' : EntityMapping) : Prop :=
  ∀ et v ph : Str, lookupInner em et v = some ph → lookupInner em' et v = some ph

/-- Cleanliness: entity types carry no angle bracket, original values no `<`. -/
def StoreClean (em : EntityMapping) : Prop :=
  ∀ p ∈ em, ('<' ∉ p.1 ∧ '>' ∉ p.1) ∧ ∀ q ∈ p.2, '<' ∉ q.1

/-- All placeholders of the store, in iteration order. -/
def phList : EntityMapping → List Str
  | [] => []
  | p :: rest => p.2.map Prod.snd ++ phList rest

/-- The flat `(placeholder, original value)` association list implied by the
store, in iteration order. -/
def flatRev : EntityMapping → List (Str × Str)
  | [] => []
  | p :: rest => p.2.map (fun q => (q.2, q.1)) ++ flatRev rest

/-- Detector spans are in bounds, ordered and non-overlapping from `pos` on
(the spec makes the detector responsible for ordering/overlap resolution). -/
def spansOk (raw : Str) : Nat → List Detection → Bool
  | pos, [] => decide (pos ≤ raw.length)
  | pos, d :: rest =>
      decide (pos ≤ d.start) && decide (d.start ≤ d.stop) && spansOk raw d.stop rest

/-! ### Basic facts about the dict embedding -/

theorem dictLookup_insert_self {α : Type} (m : List (Str × α)) (k : Str) (v : α) :
    dictLookup (dictInsert m k v) k = some v := by
  induction m with
  | nil => simp [dictInsert, dictLookup]
  | cons q rest ih =>
      obtain ⟨k', v'⟩ := q
      by_cases h : k' = k
      · simp [dictInsert, h, dictLookup]
      · simp [dictInsert, h, dictLookup, ih]

theorem dictLookup_insert_ne {α : Type} (m : List (Str × α)) (k : Str) (v : α) (k' : Str)
    (h : k' ≠ k) : dictLookup (dictInsert m k v) k' = dictLookup m k' := by
  induction m with
  | nil => simp only [dictInsert, dictLookup, if_neg (Ne.symm h)]
  | cons q rest ih =>
      obtain ⟨k0, v0⟩ := q
      by_cases h0 : k0 = k
      · subst h0
        simp only [dictInsert, if_pos rfl, dictLookup, if_neg (Ne.symm h)]
      · simp only [dictInsert, if_neg h0, dictLookup, ih]

theorem dictLookup_eq_none_iff {α : Type} {m : List (Str × α)} {k : Str} :
    dictLookup m k = none ↔ k ∉ m.map Prod.fst := by
  induction m with
  | nil => simp [dictLookup]
  | cons q rest ih =>
      obtain ⟨k', v'⟩ := q
      by_cases h : k' = k
      · simp [dictLookup, h]
      · simp [dictLookup, h, ih, Ne.symm h]

theorem mem_of_dictLookup {α : Type} {m : List (Str × α)} {k : Str} {v : α}
    (h : dictLookup m k = some v) : (k, v) ∈ m := by
  induction m with
  | nil => simp [dictLookup] at h
  | cons q rest ih =>
      obtain ⟨k', v'⟩ := q
      by_cases h0 : k' = k
      · subst h0
        simp [dictLookup] at h
        simp [h]
      · simp [dictLookup, h0] at h
        exact List.mem_cons_of_mem _ (ih h)

theorem dictLookup_of_mem_nodup {α : Type} {m : List (Str × α)} {k : Str} {v : α}
    (hn : (m.map Prod.fst).Nodup) (h : (k, v) ∈ m) : dictLookup m k = some v := by
  induction m with
  | nil => simp at h
  | cons q rest ih =>
      obtain ⟨k', v'⟩ := q
      rw [List.map_cons, List.nodup_cons] at hn
      rcases List.mem_cons.mp h with h1 | h1
      · cases h1
        simp [dictLookup]
      · have hk : k' ≠ k := by
          intro he
          subst he
          have h2 := List.mem_map_of_mem Prod.fst h1
          exact hn.1 h2
        simp only [dictLookup, if_neg hk]
        exact ih hn.2 h1

theorem dictInsert_of_not_mem {α : Type} {m : List (Str × α)} {k : Str}
    (h : k ∉ m.map Prod.fst) (v : α) : dictInsert m k v = m ++ [(k, v)] := by
  induction m with
  | nil => simp [dictInsert]
  | cons q rest ih =>
      obtain ⟨k', v'⟩ := q
      rw [List.map_cons] at h
      have h1 : ¬k' = k := fun he => h (by rw [he]; exact List.mem_cons_self _ _)
      have h2 : k ∉ rest.map Prod.fst := fun hm => h (List.mem_cons_of_mem _ hm)
      simp only [dictInsert, if_neg h1, ih h2, List.cons_append]

theorem mem_dictInsert {α : Type} {m : List (Str × α)} {k : Str} {v : α} {q : Str × α}
    (h : q ∈ dictInsert m k v) : q = (k, v) ∨ q ∈ m := by
  induction m with
  | nil => simp [dictInsert] at h; simp [h]
  | cons q0 rest ih =>
      obtain ⟨k', v'⟩ := q0
      by_cases h0 : k' = k
      · simp [dictInsert, h0] at h
        rcases h with h | h
        · left; simp [h]
        · right; exact List.mem_cons_of_mem _ h
      · simp [dictInsert, h0] at h
        rcases h with h | h
        · right; simp [h]
        · rcases ih h with h1 | h1
          · left; exact h1
          · right; exact List.mem_cons_of_mem _ h1

theorem map_fst_dictInsert_mem {α : Type} {m : List (Str × α)} {k : Str} (v : α)
    (h : k ∈ m.map Prod.fst) :
    (dictInsert m k v).map Prod.fst = m.map Prod.fst := by
  induction m with
  | nil => simp at h
  | cons q rest ih =>
      obtain ⟨k', v'⟩ := q
      by_cases h0 : k' = k
      · simp [dictInsert, h0]
      · rw [List.map_cons, List.mem_cons] at h
        rcases h with h | h
        · exact absurd h.symm h0
        · simp only [dictInsert, if_neg h0, List.map_cons, ih h]

/-! ### The left-to-right scan of Python `str.replace` -/

theorem begMatch_iff {p s : Str} : begMatch p s = true ↔ ∃ t, s = p ++ t := by
  induction p generalizing s with
  | nil =>
      constructor
      · intro _; exact ⟨s, rfl⟩
      · intro _; rfl
  | cons c p ih =>
      cases s with
      | nil =>
          constructor
          · intro h; exact absurd h (by simp [begMatch])
          · rintro ⟨t, ht⟩; exact absurd ht (by simp)
      | cons a s' =>
          constructor
          · intro h
            have h1 : c = a ∧ begMatch p s' = true := by simpa [begMatch] using h
            rcases ih.mp h1.2 with ⟨t, ht⟩
            exact ⟨t, by rw [List.cons_append, h1.1, ht]⟩
          · rintro ⟨t, ht⟩
            rw [List.cons_append] at ht
            injection ht with h1 h2
            subst h1
            simp [begMatch, ih.mpr ⟨t, h2⟩]

theorem begMatch_self_append (p t : Str) : begMatch p (p ++ t) = true :=
  begMatch_iff.mpr ⟨t, rfl⟩

theorem begMatch_head_ne {c a : Char} (p s : Str) (h : c ≠ a) :
    begMatch (c :: p) (a :: s) = false := by
  simp [begMatch, h]

theorem drop_append_self : ∀ (p t : Str), (p ++ t).drop p.length = t
  | [], _ => rfl
  | _ :: p, t => drop_append_self p t

theorem pyReplaceAux_nil (pat rep : Str) (fuel : Nat) : pyReplaceAux pat rep fuel [] = [] := by
  cases fuel <;> rfl

theorem pyReplaceAux_fuel {pat rep : Str} (hp : pat ≠ []) :
    ∀ (f1 f2 : Nat) (s : Str), s.length ≤ f1 → s.length ≤ f2 →
      pyReplaceAux pat rep f1 s = pyReplaceAux pat rep f2 s := by
  intro f1
  induction f1 with
  | zero =>
      intro f2 s h1 _
      have hs : s = [] := List.eq_nil_of_length_eq_zero (Nat.le_zero.mp h1)
      subst hs
      rw [pyReplaceAux_nil, pyReplaceAux_nil]
  | succ f1 ih =>
      intro f2 s h1 h2
      cases s with
      | nil => rw [pyReplaceAux_nil, pyReplaceAux_nil]
      | cons c rest =>
          have hplen : 0 < pat.length := List.length_pos.mpr hp
          cases f2 with
          | zero => exact absurd h2 (by simp)
          | succ f2' =>
              simp only [pyReplaceAux]
              by_cases hm : begMatch pat (c :: rest) = true
              · rw [hm]
                simp only [if_true]
                have hd : ((c :: rest).drop pat.length).length ≤ rest.length := by
                  simp only [List.length_drop, List.length_cons]
                  omega
                have hlen1 : ((c :: rest).drop pat.length).length ≤ f1 := by
                  have : rest.length ≤ f1 := by simpa using h1
                  omega
                have hlen2 : ((c :: rest).drop pat.length).length ≤ f2' := by
                  have : rest.length ≤ f2' := by simpa using h2
                  omega
                rw [ih _ _ hlen1 hlen2]
              · rw [Bool.not_eq_true] at hm
                rw [hm]
                simp only [Bool.false_eq_true, if_false]
                have hlen1 : rest.length ≤ f1 := by simpa using h1
                have hlen2 : rest.length ≤ f2' := by simpa using h2
                rw [ih _ _ hlen1 hlen2]

theorem pyReplaceAux_skip {pat rep : Str} (hp : pat ≠ []) :
    ∀ (s t : Str) (fuel : Nat), (s ++ t).length ≤ fuel →
      (∀ i, i < s.length → begMatch pat (s.drop i ++ t) = false) →
      pyReplaceAux pat rep fuel (s ++ t) = s ++ pyReplaceAux pat rep t.length t := by
  intro s
  induction s with
  | nil =>
      intro t fuel h1 _
      simp only [List.nil_append]
      exact pyReplaceAux_fuel hp fuel t.length t (by simpa using h1) (le_refl _)
  | cons c s' ih =>
      intro t fuel h1 h2
      cases fuel with
      | zero => exact absurd h1 (by simp)
      | succ f =>
          have hm : begMatch pat (c :: (s' ++ t)) = false := by
            have := h2 0 (by simp)
            simpa using this
          rw [List.cons_append]
          simp only [pyReplaceAux, hm]
          simp only [Bool.false_eq_true, if_false]
          rw [List.cons_append]
          congr 1
          refine ih t f (by simpa using h1) ?_
          intro i hi
          have := h2 (i + 1) (by simp; omega)
          simpa [List.drop_succ_cons] using this

theorem pyReplaceAux_head_match {pat rep : Str} (hp : pat ≠ []) (t : Str) (fuel : Nat)
    (hf : (pat ++ t).length ≤ fuel) :
    pyReplaceAux pat rep fuel (pat ++ t) = rep ++ pyReplaceAux pat rep t.length t := by
  obtain ⟨c, ps, rfl⟩ : ∃ c ps, pat = c :: ps := by
    cases pat with
    | nil => exact absurd rfl hp
    | cons c ps => exact ⟨c, ps, rfl⟩
  cases fuel with
  | zero => exact absurd hf (by simp)
  | succ f =>
      have hm := begMatch_self_append (c :: ps) t
      rw [List.cons_append] at hm
      rw [List.cons_append]
      simp only [pyReplaceAux, hm, if_true]
      congr 1
      have hdrop : (c :: (ps ++ t)).drop (c :: ps).length = t := by
        rw [← List.cons_append, drop_append_self]
      rw [hdrop]
      have hlen : t.length ≤ f := by
        simp only [List.length_append, List.length_cons] at hf
        omega
      exact pyReplaceAux_fuel hp f t.length t hlen (le_refl _)

theorem pyReplaceAux_of_no_match {pat rep : Str} :
    ∀ (fuel : Nat) (s : Str), (∀ i, begMatch pat (s.drop i) = false) →
      pyReplaceAux pat rep fuel s = s := by
  intro fuel
  induction fuel with
  | zero => intro s _; cases s <;> rfl
  | succ f ih =>
      intro s h
      cases s with
      | nil => rfl
      | cons c rest =>
          have h0 : begMatch pat (c :: rest) = false := by simpa using h 0
          simp only [pyReplaceAux, h0, Bool.false_eq_true, if_false]
          congr 1
          exact ih rest (fun i => by simpa [List.drop_succ_cons] using h (i + 1))

theorem containsSub_iff {s pat : Str} : containsSub s pat = true ↔ ∃ a b, s = a ++ pat ++ b := by
  unfold containsSub
  rw [List.any_eq_true]
  constructor
  · rintro ⟨i, _, hb⟩
    rcases begMatch_iff.mp hb with ⟨t, ht⟩
    refine ⟨s.take i, t, ?_⟩
    rw [List.append_assoc, ← ht, List.take_append_drop]
  · rintro ⟨a, b, rfl⟩
    refine ⟨a.length, ?_, ?_⟩
    · rw [List.mem_range]
      simp [List.length_append]
      omega
    · rw [List.append_assoc, drop_append_self]
      exact begMatch_self_append pat b

theorem containsSub_nil_pat (s : Str) : containsSub s [] = true := by
  unfold containsSub
  rw [List.any_eq_true]
  exact ⟨0, by simp [List.mem_range], rfl⟩

theorem pyReplace_of_not_contains {s pat rep : Str} (h : containsSub s pat = false) :
    pyReplace s pat rep = s := by
  have hp : pat ≠ [] := by
    intro he
    subst he
    rw [containsSub_nil_pat s] at h
    exact absurd h (by simp)
  obtain ⟨c, ps, rfl⟩ : ∃ c ps, pat = c :: ps := by
    cases pat with
    | nil => exact absurd rfl hp
    | cons c ps => exact ⟨c, ps, rfl⟩
  show pyReplaceAux (c :: ps) rep s.length s = s
  apply pyReplaceAux_of_no_match
  intro i
  by_cases hi : i ≤ s.length
  · unfold containsSub at h
    rw [List.any_eq_false] at h
    have := h i (by rw [List.mem_range]; omega)
    simpa using this
  · have hd : s.drop i = [] := List.drop_eq_nil_of_le (by omega)
    rw [hd]
    rfl

/-! ### Decimal digits: evaluation, injectivity, character range -/

theorem toDigitsAux_zero (fuel : Nat) : toDigitsAux fuel 0 = [] := by
  cases fuel <;> simp [toDigitsAux]

theorem digitVal_digitChar : ∀ d : Nat, d < 10 → digitVal (Nat.digitChar d) = d := by decide

theorem digitChar_ne : ∀ d : Nat, d < 10 →
    Nat.digitChar d ≠ '_' ∧ Nat.digitChar d ≠ '<' ∧ Nat.digitChar d ≠ '>' := by decide

theorem evalDigits_snoc (xs : Str) (c : Char) :
    evalDigits (xs ++ [c]) = evalDigits xs * 10 + digitVal c := by
  unfold evalDigits
  rw [List.foldl_append]
  rfl

theorem toDigitsAux_eval : ∀ (fuel n : Nat), 1 ≤ n → n ≤ fuel →
    evalDigits (toDigitsAux fuel n) = n := by
  intro fuel
  induction fuel with
  | zero => intro n h1 h2; omega
  | succ f ih =>
      intro n h1 h2
      have hn : ¬n = 0 := by omega
      simp only [toDigitsAux, if_neg hn]
      rw [evalDigits_snoc, digitVal_digitChar _ (Nat.mod_lt n (by omega))]
      by_cases h10 : n / 10 = 0
      · rw [h10, toDigitsAux_zero]
        have : evalDigits [] = 0 := rfl
        rw [this]
        omega
      · have hge : 1 ≤ n / 10 := Nat.one_le_iff_ne_zero.mpr h10
        have hlt : n / 10 < n := Nat.div_lt_self (by omega) (by omega)
        rw [ih (n / 10) hge (by omega)]
        omega

theorem natRepr_eval (n : Nat) : evalDigits (natRepr n) = n := by
  by_cases h : n = 0
  · subst h; rfl
  · rw [natRepr, if_neg h]
    exact toDigitsAux_eval n n (by omega) (le_refl n)

theorem natRepr_inj {a b : Nat} (h : natRepr a = natRepr b) : a = b := by
  have ha := natRepr_eval a
  rw [h, natRepr_eval] at ha
  omega

theorem toDigitsAux_chars : ∀ (fuel n : Nat) (c : Char), c ∈ toDigitsAux fuel n →
    ∃ d, d < 10 ∧ c = Nat.digitChar d := by
  intro fuel
  induction fuel with
  | zero => intro n c h; simp [toDigitsAux] at h
  | succ f ih =>
      intro n c h
      by_cases hn : n = 0
      · rw [hn, toDigitsAux_zero] at h
        simp at h
      · simp only [toDigitsAux, if_neg hn, List.mem_append, List.mem_singleton] at h
        rcases h with h | h
        · exact ih _ c h
        · exact ⟨n % 10, Nat.mod_lt _ (by omega), h⟩

theorem natRepr_chars {n : Nat} {c : Char} (h : c ∈ natRepr n) :
    c ≠ '_' ∧ c ≠ '<' ∧ c ≠ '>' := by
  unfold natRepr at h
  by_cases h0 : n = 0
  · rw [if_pos h0] at h
    have : c = '0' := by simpa using h
    rw [this]
    refine ⟨by decide, by decide, by decide⟩
  · rw [if_neg h0] at h
    obtain ⟨d, hd, rfl⟩ := toDigitsAux_chars n n c h
    exact digitChar_ne d hd

/-! ### Separator lemmas and injectivity of the placeholder format -/

theorem sep_first {x : Char} : ∀ {a b c d : Str}, a ++ x :: c = b ++ x :: d →
    x ∉ a → x ∉ b → a = b ∧ c = d := by
  intro a
  induction a with
  | nil =>
      intro b c d h _ hb
      cases b with
      | nil =>
          rw [List.nil_append, List.nil_append] at h
          injection h with _ h2
          exact ⟨rfl, h2⟩
      | cons y b' =>
          rw [List.nil_append, List.cons_append] at h
          injection h with h1 _
          exact absurd (h1 ▸ List.mem_cons_self y b') hb
  | cons z a' ih =>
      intro b c d h ha hb
      cases b with
      | nil =>
          rw [List.cons_append, List.nil_append] at h
          injection h with h1 _
          exact absurd (h1 ▸ List.mem_cons_self z a') ha
      | cons y b' =>
          rw [List.cons_append, List.cons_append] at h
          injection h with h1 h2
          subst h1
          have ha' : x ∉ a' := fun hm => ha (List.mem_cons_of_mem _ hm)
          have hb' : x ∉ b' := fun hm => hb (List.mem_cons_of_mem _ hm)
          obtain ⟨hab, hcd⟩ := ih h2 ha' hb'
          exact ⟨by rw [hab], hcd⟩

theorem sep_last {x : Char} : ∀ {a b c d : Str}, a ++ x :: c = b ++ x :: d →
    x ∉ c → x ∉ d → a = b ∧ c = d := by
  intro a
  induction a with
  | nil =>
      intro b c d h hc _
      cases b with
      | nil =>
          rw [List.nil_append, List.nil_append] at h
          injection h with _ h2
          exact ⟨rfl, h2⟩
      | cons y b' =>
          rw [List.nil_append, List.cons_append] at h
          injection h with _ h2
          exact absurd (h2 ▸ List.mem_append_right b' (List.mem_cons_self x d)) hc
  | cons z a' ih =>
      intro b c d h hc hd
      cases b with
      | nil =>
          rw [List.cons_append, List.nil_append] at h
          injection h with _ h2
          exact absurd (h2.symm ▸ List.mem_append_right a' (List.mem_cons_self x c)) hd
      | cons y b' =>
          rw [List.cons_append, List.cons_append] at h
          injection h with h1 h2
          subst h1
          obtain ⟨hab, hcd⟩ := ih h2 hc hd
          exact ⟨by rw [hab], hcd⟩

theorem replacingFormat_inj {e1 e2 : Str} {i1 i2 : Nat}
    (h : replacingFormat e1 i1 = replacingFormat e2 i2) : e1 = e2 ∧ i1 = i2 := by
  unfold replacingFormat at h
  rw [List.cons_append, List.cons_append] at h
  injection h with _ h2
  rw [List.append_assoc, List.cons_append, List.append_assoc, List.cons_append] at h2
  have hc1 : '_' ∉ natRepr i1 ++ ['>'] := by
    intro hm
    rcases List.mem_append.mp hm with hm | hm
    · exact (natRepr_chars hm).1 rfl
    · have he : '_' = '>' := List.mem_singleton.mp hm
      exact absurd he (by decide)
  have hc2 : '_' ∉ natRepr i2 ++ ['>'] := by
    intro hm
    rcases List.mem_append.mp hm with hm | hm
    · exact (natRepr_chars hm).1 rfl
    · have he : '_' = '>' := List.mem_singleton.mp hm
      exact absurd he (by decide)
  obtain ⟨he, hr⟩ := sep_last h2 hc1 hc2
  have hr2 : natRepr i1 ++ '>' :: [] = natRepr i2 ++ '>' :: [] := by simpa using hr
  obtain ⟨hn, _⟩ := sep_last hr2 (by simp) (by simp)
  exact ⟨he, natRepr_inj hn⟩

/-! ### Placeholder-shaped tokens: `<` only at the start, `>` only at the end -/

theorem shaped_replacingFormat {et : Str} (i : Nat) (h1 : '<' ∉ et) (h2 : '>' ∉ et) :
    Shaped (replacingFormat et i) := by
  refine ⟨et ++ '_' :: natRepr i, rfl, ?_, ?_⟩
  · intro hm
    rcases List.mem_append.mp hm with hm | hm
    · exact h1 hm
    · rcases List.mem_cons.mp hm with hm | hm
      · exact absurd hm (by decide)
      · exact (natRepr_chars hm).2.1 rfl
  · intro hm
    rcases List.mem_append.mp hm with hm | hm
    · exact h2 hm
    · rcases List.mem_cons.mp hm with hm | hm
      · exact absurd hm (by decide)
      · exact (natRepr_chars hm).2.2 rfl

theorem shaped_ne_nil {s : Str} (h : Shaped s) : s ≠ [] := by
  obtain ⟨mid, rfl, -, -⟩ := h
  simp

theorem shaped_tail_ne {s : Str} (h : Shaped s) : ∀ c ∈ s.drop 1, c ≠ '<' := by
  obtain ⟨mid, rfl, hm, -⟩ := h
  intro c hc
  rw [List.cons_append, List.drop_one, List.tail_cons] at hc
  rcases List.mem_append.mp hc with hc | hc
  · exact fun he => hm (he ▸ hc)
  · have he : c = '>' := List.mem_singleton.mp hc
    rw [he]
    decide

theorem shaped_begMatch_eq {p s t : Str} (hp : Shaped p) (hs : Shaped s)
    (h : begMatch p (s ++ t) = true) : p = s := by
  obtain ⟨v, rfl, -, hv2⟩ := hp
  obtain ⟨u, rfl, -, hu2⟩ := hs
  rcases begMatch_iff.mp h with ⟨r, hr⟩
  rw [List.cons_append, List.cons_append, List.cons_append, List.cons_append] at hr
  injection hr with _ h2
  rw [List.append_assoc, List.append_assoc, List.singleton_append, List.singleton_append] at h2
  obtain ⟨huv, -⟩ := sep_first h2 hu2 hv2
  rw [huv]

theorem drop_head_mem_tail {s : Str} {i : Nat} {c : Char} {r : Str}
    (hi : 1 ≤ i) (hcr : s.drop i = c :: r) : c ∈ s.drop 1 := by
  have h1 : s.drop i = (s.drop 1).drop (i - 1) := by
    rw [List.drop_drop]
    congr 1
    omega
  have hc : c ∈ s.drop i := by
    rw [hcr]
    exact List.mem_cons_self _ _
  rw [h1] at hc
  exact List.mem_of_mem_drop hc

theorem shaped_skip_cond {pat s : Str} (t : Str) (hpat : Shaped pat) (hs : Shaped s)
    (hne : pat ≠ s) : ∀ i, i < s.length → begMatch pat (s.drop i ++ t) = false := by
  intro i hi
  rcases Nat.eq_zero_or_pos i with h0 | h0
  · subst h0
    rw [List.drop_zero]
    by_contra hb
    rw [Bool.not_eq_false] at hb
    exact hne (shaped_begMatch_eq hpat hs hb)
  · have hne2 : s.drop i ≠ [] := by
      intro he
      have hl := congrArg List.length he
      rw [List.length_drop] at hl
      simp at hl
      omega
    obtain ⟨c, r, hcr⟩ := List.exists_cons_of_ne_nil hne2
    have hcne : c ≠ '<' := shaped_tail_ne hs c (drop_head_mem_tail h0 hcr)
    obtain ⟨mid, hpe, -, -⟩ := hpat
    rw [hcr, List.cons_append, hpe, List.cons_append]
    exact begMatch_head_ne _ _ (fun he => hcne he.symm)

theorem ltfree_skip_cond {pat s : Str} (t : Str) (hpat : Shaped pat) (hs : '<' ∉ s) :
    ∀ i, i < s.length → begMatch pat (s.drop i ++ t) = false := by
  intro i hi
  have hne2 : s.drop i ≠ [] := by
    intro he
    have hl := congrArg List.length he
    rw [List.length_drop] at hl
    simp at hl
    omega
  obtain ⟨c, r, hcr⟩ := List.exists_cons_of_ne_nil hne2
  have hcm : c ∈ s := by
    have hc : c ∈ s.drop i := by
      rw [hcr]
      exact List.mem_cons_self _ _
    exact List.mem_of_mem_drop hc
  obtain ⟨mid, hpe, -, -⟩ := hpat
  rw [hcr, List.cons_append, hpe, List.cons_append]
  refine begMatch_head_ne _ _ (fun he => hs ?_)
  rw [he]
  exact hcm

/-! ### Piece decompositions: texts as literal segments and placeholder tokens -/

theorem pyReplace_append_skip {pat rep : Str} (s t : Str) (hpat : pat ≠ [])
    (hcond : ∀ i, i < s.length → begMatch pat (s.drop i ++ t) = false) :
    pyReplace (s ++ t) pat rep = s ++ pyReplace t pat rep := by
  obtain ⟨c, ps', rfl⟩ : ∃ c ps', pat = c :: ps' := by
    cases pat with
    | nil => exact absurd rfl hpat
    | cons c ps' => exact ⟨c, ps', rfl⟩
  show pyReplaceAux (c :: ps') rep (s ++ t).length (s ++ t) =
    s ++ pyReplaceAux (c :: ps') rep t.length t
  exact pyReplaceAux_skip hpat s t (s ++ t).length (le_refl _) hcond

theorem pyReplace_append_head {pat rep : Str} (t : Str) (hpat : pat ≠ []) :
    pyReplace (pat ++ t) pat rep = rep ++ pyReplace t pat rep := by
  obtain ⟨c, ps', rfl⟩ : ∃ c ps', pat = c :: ps' := by
    cases pat with
    | nil => exact absurd rfl hpat
    | cons c ps' => exact ⟨c, ps', rfl⟩
  show pyReplaceAux (c :: ps') rep ((c :: ps') ++ t).length ((c :: ps') ++ t) =
    rep ++ pyReplaceAux (c :: ps') rep t.length t
  exact pyReplaceAux_head_match hpat t _ (le_refl _)

theorem pyReplace_flatPieces {pat rep : Str} (hpat : Shaped pat) :
    ∀ ps : List Piece, PiecesOk ps →
      pyReplace (flatPieces ps) pat rep = flatPieces (ps.map (stepPiece pat rep)) := by
  intro ps
  induction ps with
  | nil =>
      intro _
      obtain ⟨c, ps', hpe⟩ : ∃ c ps', pat = c :: ps' := by
        cases pat with
        | nil => exact absurd rfl (shaped_ne_nil hpat)
        | cons c ps' => exact ⟨c, ps', rfl⟩
      rw [hpe]
      rfl
  | cons q rest ih =>
      intro hok
      have hq := hok q (List.mem_cons_self _ _)
      have hrest : PiecesOk rest := fun p hp => hok p (List.mem_cons_of_mem _ hp)
      obtain ⟨b, s⟩ := q
      cases b with
      | true =>
          have hsh : Shaped s := hq.1 rfl
          by_cases hsp : s = pat
          · subst hsp
            show pyReplace (s ++ flatPieces rest) s rep = _
            rw [pyReplace_append_head _ (shaped_ne_nil hpat), ih hrest]
            have hstep : stepPiece s rep (true, s) = (false, rep) := by
              unfold stepPiece
              rw [if_pos ⟨rfl, rfl⟩]
            rw [List.map_cons, hstep]
            rfl
          · show pyReplace (s ++ flatPieces rest) pat rep = _
            rw [pyReplace_append_skip s _ (shaped_ne_nil hpat)
              (shaped_skip_cond _ hpat hsh (fun he => hsp (he.symm))), ih hrest]
            have hstep : stepPiece pat rep (true, s) = (true, s) := by
              unfold stepPiece
              rw [if_neg]
              intro hc
              exact hsp hc.2
            rw [List.map_cons, hstep]
            rfl
      | false =>
          have hlt : '<' ∉ s := hq.2 rfl
          show pyReplace (s ++ flatPieces rest) pat rep = _
          rw [pyReplace_append_skip s _ (shaped_ne_nil hpat)
            (ltfree_skip_cond _ hpat hlt), ih hrest]
          have hstep : stepPiece pat rep (false, s) = (false, s) := by
            unfold stepPiece
            rw [if_neg]
            intro hc
            exact Bool.noConfusion hc.1
          rw [List.map_cons, hstep]
          rfl

theorem piecesOk_step {pat rep : Str} (hrep : '<' ∉ rep) {ps : List Piece}
    (h : PiecesOk ps) : PiecesOk (ps.map (stepPiece pat rep)) := by
  intro q hq
  rcases List.mem_map.mp hq with ⟨q0, hq0, rfl⟩
  unfold stepPiece
  by_cases hc : q0.1 = true ∧ q0.2 = pat
  · rw [if_pos hc]
    exact ⟨fun hh => Bool.noConfusion hh, fun _ => hrep⟩
  · rw [if_neg hc]
    exact h q0 hq0

theorem stepAll_nil (q : Piece) : stepAll [] q = q := by
  unfold stepAll
  by_cases h : q.1 = true
  · rw [if_pos h]
    rfl
  · rw [if_neg h]

theorem stepAll_cons (e : Str × Str) (rm : List (Str × Str)) (q : Piece) :
    stepAll rm (stepPiece e.1 e.2 q) = stepAll (e :: rm) q := by
  obtain ⟨b, s⟩ := q
  obtain ⟨k, v⟩ := e
  cases b with
  | false =>
      have h1 : stepPiece k v (false, s) = (false, s) := by
        unfold stepPiece
        rw [if_neg]
        intro hc
        exact Bool.noConfusion hc.1
      rw [h1]
      unfold stepAll
      rw [if_neg (by exact fun hh => Bool.noConfusion hh), if_neg (by exact fun hh => Bool.noConfusion hh)]
  | true =>
      by_cases hs : s = k
      · have h1 : stepPiece k v (true, s) = (false, v) := by
          unfold stepPiece
          rw [if_pos ⟨rfl, hs⟩]
        rw [h1]
        unfold stepAll
        rw [if_neg (by exact fun hh => Bool.noConfusion hh), if_pos rfl]
        have h2 : dictLookup ((k, v) :: rm) s = some v := by
          unfold dictLookup
          rw [if_pos hs.symm]
        rw [h2]
      · have h1 : stepPiece k v (true, s) = (true, s) := by
          unfold stepPiece
          rw [if_neg]
          intro hc
          exact hs hc.2
        rw [h1]
        unfold stepAll
        rw [if_pos rfl, if_pos rfl]
        have h2 : dictLookup ((k, v) :: rm) s = dictLookup rm s := by
          show (if k = s then some v else dictLookup rm s) = dictLookup rm s
          rw [if_neg (fun he => hs he.symm)]
        rw [h2]

theorem map_stepAll_nil (ps : List Piece) : ps.map (stepAll []) = ps := by
  induction ps with
  | nil => rfl
  | cons q rest ihp => rw [List.map_cons, stepAll_nil, ihp]

theorem applyReplacements_flatPieces :
    ∀ (rm : List (Str × Str)) (ps : List Piece),
      (∀ e ∈ rm, Shaped e.1 ∧ '<' ∉ e.2) → PiecesOk ps →
      applyReplacements (flatPieces ps) rm = flatPieces (ps.map (stepAll rm)) := by
  intro rm
  induction rm with
  | nil =>
      intro ps _ _
      show flatPieces ps = flatPieces (ps.map (stepAll []))
      rw [map_stepAll_nil]
  | cons e rm' ih =>
      intro ps hrm hok
      have he := hrm e (List.mem_cons_self _ _)
      have hrm' : ∀ x ∈ rm', Shaped x.1 ∧ '<' ∉ x.2 :=
        fun x hx => hrm x (List.mem_cons_of_mem _ hx)
      show applyReplacements (pyReplace (flatPieces ps) e.1 e.2) rm' = _
      rw [pyReplace_flatPieces he.1 ps hok, ih _ hrm' (piecesOk_step he.2 hok), List.map_map]
      congr 1
      apply List.map_congr_left
      intro q _
      exact stepAll_cons e rm' q

theorem pyReplace_cons_no_match {pat rep : Str} (c : Char) (rest : Str) (hpat : pat ≠ [])
    (hm : begMatch pat (c :: rest) = false) :
    pyReplace (c :: rest) pat rep = c :: pyReplace rest pat rep := by
  obtain ⟨p, ps, rfl⟩ : ∃ p ps, pat = p :: ps := by
    cases pat with
    | nil => exact absurd rfl hpat
    | cons p ps => exact ⟨p, ps, rfl⟩
  show pyReplaceAux (p :: ps) rep (c :: rest).length (c :: rest) =
    c :: pyReplaceAux (p :: ps) rep rest.length rest
  simp only [List.length_cons, pyReplaceAux, hm, Bool.false_eq_true, if_false]

theorem pyReplace_survive {T pat rep : Str} (hT : Shaped T) (hpat : Shaped pat)
    (hne : pat ≠ T) :
    ∀ (n : Nat) (a b : Str), a.length ≤ n →
      ∃ a' b', pyReplace (a ++ T ++ b) pat rep = a' ++ T ++ b' := by
  intro n
  induction n with
  | zero =>
      intro a b ha
      have hnil : a = [] := List.eq_nil_of_length_eq_zero (Nat.le_zero.mp ha)
      subst hnil
      rw [List.nil_append]
      rw [pyReplace_append_skip T b (shaped_ne_nil hpat)
        (shaped_skip_cond _ hpat hT hne)]
      exact ⟨[], pyReplace b pat rep, by rw [List.nil_append]⟩
  | succ n ih =>
      intro a b ha
      cases a with
      | nil =>
          rw [List.nil_append]
          rw [pyReplace_append_skip T b (shaped_ne_nil hpat)
            (shaped_skip_cond _ hpat hT hne)]
          exact ⟨[], pyReplace b pat rep, by rw [List.nil_append]⟩
      | cons c a2 =>
          by_cases hm : begMatch pat ((c :: a2) ++ T ++ b) = true
          · rcases begMatch_iff.mp hm with ⟨r, hstr⟩
            have hle : pat.length ≤ (c :: a2).length := by
              by_contra hgt
              push_neg at hgt
              have hdrop := congrArg (List.drop (c :: a2).length) hstr
              rw [List.append_assoc, drop_append_self] at hdrop
              have hsplit : (pat ++ r).drop (c :: a2).length =
                  pat.drop (c :: a2).length ++ r := by
                rw [List.drop_append_of_le_length (by omega)]
              rw [hsplit] at hdrop
              obtain ⟨mid, hTe, -, -⟩ := hT
              have hpd : pat.drop (c :: a2).length ≠ [] := by
                intro he
                have hl := congrArg List.length he
                rw [List.length_drop, List.length_nil] at hl
                omega
              obtain ⟨d, dr, hdr⟩ := List.exists_cons_of_ne_nil hpd
              have hdne : d ≠ '<' :=
                shaped_tail_ne hpat d (drop_head_mem_tail (by simp) hdr)
              rw [hdr, hTe] at hdrop
              rw [List.cons_append] at hdrop
              injection hdrop with h1 _
              exact hdne h1.symm
            have hpre : (c :: a2) = pat ++ (c :: a2).drop pat.length := by
              have htake := congrArg (List.take pat.length) hstr
              rw [List.append_assoc, List.take_append_of_le_length hle,
                List.take_left] at htake
              conv_lhs => rw [← List.take_append_drop pat.length (c :: a2)]
              rw [htake]
            rw [hpre, List.append_assoc, List.append_assoc]
            rw [pyReplace_append_head _ (shaped_ne_nil hpat)]
            have hlen2 : ((c :: a2).drop pat.length).length ≤ n := by
              have hplen : 0 < pat.length := List.length_pos.mpr (shaped_ne_nil hpat)
              have hdl := List.length_drop pat.length (c :: a2)
              have hlc : (c :: a2).length = a2.length + 1 := List.length_cons c a2
              have hha : (c :: a2).length ≤ n + 1 := ha
              omega
            rw [← List.append_assoc]
            obtain ⟨a'', b'', hab⟩ := ih ((c :: a2).drop pat.length) b hlen2
            rw [hab]
            exact ⟨rep ++ a'', b'', by rw [List.append_assoc, List.append_assoc,
              List.append_assoc]⟩
          · rw [Bool.not_eq_true] at hm
            rw [List.append_assoc, List.cons_append] at hm
            have hlen3 : a2.length ≤ n := by
              have hha : (c :: a2).length ≤ n + 1 := ha
              have hlc : (c :: a2).length = a2.length + 1 := List.length_cons c a2
              omega
            obtain ⟨a'', b'', hab⟩ := ih a2 b hlen3
            rw [List.append_assoc, List.cons_append,
              pyReplace_cons_no_match c _ (shaped_ne_nil hpat) hm,
              ← List.append_assoc, hab]
            refine ⟨c :: a'', b'', ?_⟩
            rw [List.cons_append, List.cons_append]

theorem dictLookup_perm {l1 l2 : List (Str × Str)} (hp : l1.Perm l2) :
    (l1.map Prod.fst).Nodup → ∀ k : Str, dictLookup l1 k = dictLookup l2 k := by
  induction hp with
  | nil => intro _ _; rfl
  | cons x hperm ih =>
      intro hn k
      obtain ⟨a, b⟩ := x
      rw [List.map_cons, List.nodup_cons] at hn
      show (if a = k then some b else _) = (if a = k then some b else _)
      by_cases hak : a = k
      · rw [if_pos hak, if_pos hak]
      · rw [if_neg hak, if_neg hak]
        exact ih hn.2 k
  | swap x y l =>
      intro hn k
      obtain ⟨a, b⟩ := x
      obtain ⟨c, d⟩ := y
      rw [List.map_cons, List.map_cons, List.nodup_cons] at hn
      have hcn : c ≠ a := fun he => hn.1 (by rw [he]; exact List.mem_cons_self _ _)
      show (if c = k then some d else if a = k then some b else dictLookup l k) =
        (if a = k then some b else if c = k then some d else dictLookup l k)
      by_cases hck : c = k
      · have hak : ¬a = k := fun he => hcn (by rw [hck, he])
        rw [if_pos hck, if_neg hak, if_pos hck]
      · by_cases hak : a = k
        · rw [if_neg hck, if_pos hak, if_pos hak]
        · rw [if_neg hck, if_neg hak, if_neg hak, if_neg hck]
  | trans h1 _ ih1 ih2 =>
      intro hn k
      have hn2 := ((h1.map Prod.fst).nodup_iff).mp hn
      rw [ih1 hn k]
      exact ih2 hn2 k

/-! ### Allocator branch lemmas and the store invariant -/

theorem dictInsert_insert {α : Type} (m : List (Str × α)) (k : Str) (v0 v : α) :
    dictInsert (dictInsert m k v0) k v = dictInsert m k v := by
  induction m with
  | nil => simp [dictInsert]
  | cons q rest ih =>
      obtain ⟨k', v'⟩ := q
      by_cases h : k' = k
      · simp [dictInsert, h]
      · simp [dictInsert, h, ih]

theorem mem_keys_of_dictLookup {α : Type} {m : List (Str × α)} {k : Str} {v : α}
    (h : dictLookup m k = some v) : k ∈ m.map Prod.fst := by
  by_contra hc
  rw [← dictLookup_eq_none_iff] at hc
  rw [h] at hc
  exact Option.noConfusion hc

theorem allocate_new_type {em : EntityMapping} {et : Str} (tx : Str)
    (h : dictLookup em et = none) :
    allocate em et tx =
      (replacingFormat et 0, em ++ [(et, [(tx, replacingFormat et 0)])]) := by
  have hnm : et ∉ em.map Prod.fst := dictLookup_eq_none_iff.mp h
  unfold allocate operate dictSetInner
  simp only [h, dictLookup_insert_self, Option.getD_some]
  rw [show dictInsert ([] : InnerMapping) tx (replacingFormat et 0) =
    [(tx, replacingFormat et 0)] from rfl]
  rw [dictInsert_insert, dictInsert_of_not_mem hnm]

theorem allocate_dup {em : EntityMapping} {et tx ph : Str} {inner : InnerMapping}
    (h1 : dictLookup em et = some inner) (h2 : dictLookup inner tx = some ph) :
    allocate em et tx = (ph, em) := by
  unfold allocate operate
  simp only [h1, h2]

theorem allocate_new_val {em : EntityMapping} {et tx : Str} {inner : InnerMapping}
    (h1 : dictLookup em et = some inner) (h2 : dictLookup inner tx = none) :
    allocate em et tx = (replacingFormat et inner.length,
      dictInsert em et (inner ++ [(tx, replacingFormat et inner.length)])) := by
  have hnm : tx ∉ inner.map Prod.fst := dictLookup_eq_none_iff.mp h2
  unfold allocate operate dictSetInner
  simp only [h1, h2, Option.getD_some]
  rw [dictInsert_of_not_mem hnm]

theorem operate_ne_error (tx : Str) (em : EntityMapping) (et : Str) :
    ∃ r, operate tx (some ⟨some em, some et⟩) = Except.ok r := by
  cases h1 : dictLookup em et with
  | none =>
      exact ⟨(replacingFormat et 0,
        dictSetInner (dictInsert em et []) et tx (replacingFormat et 0)),
        by unfold operate; simp only [h1]⟩
  | some inner =>
      cases h2 : dictLookup inner tx with
      | some ph => exact ⟨(ph, em), by unfold operate; simp only [h1, h2]⟩
      | none =>
          exact ⟨(replacingFormat et inner.length,
            dictSetInner em et tx (replacingFormat et inner.length)),
            by unfold operate; simp only [h1, h2]⟩

theorem operate_eq_allocate (tx : Str) (em : EntityMapping) (et : Str) :
    operate tx (some ⟨some em, some et⟩) = Except.ok (allocate em et tx) := by
  obtain ⟨r, hr⟩ := operate_ne_error tx em et
  unfold allocate
  rw [hr]

theorem storeInv_nil : StoreInv [] :=
  ⟨List.nodup_nil, fun p hp => absurd hp (List.not_mem_nil p)⟩

theorem storeInv_allocate {em : EntityMapping} (h : StoreInv em) (et tx : Str) :
    StoreInv (allocate em et tx).2 := by
  cases h1 : dictLookup em et with
  | none =>
      rw [allocate_new_type tx h1]
      have hnm : et ∉ em.map Prod.fst := dictLookup_eq_none_iff.mp h1
      constructor
      · rw [List.map_append]
        apply List.Nodup.append h.1 (by simp)
        intro x hx hx2
        have hxe : x = et := by simpa using hx2
        exact hnm (hxe ▸ hx)
      · intro p hp
        rcases List.mem_append.mp hp with hp | hp
        · exact h.2 p hp
        · have hpe : p = (et, [(tx, replacingFormat et 0)]) := by simpa using hp
          subst hpe
          refine ⟨by simp, ?_⟩
          intro i
          have h0 : i = ⟨0, by simp⟩ := by
            apply Fin.ext
            have hlt := i.isLt
            simp at hlt
            simpa using hlt
          rw [h0]
          rfl
  | some inner =>
      cases h2 : dictLookup inner tx with
      | some ph =>
          rw [allocate_dup h1 h2]
          exact h
      | none =>
          rw [allocate_new_val h1 h2]
          have hmem : (et, inner) ∈ em := mem_of_dictLookup h1
          have hinner := h.2 (et, inner) hmem
          have hkey : et ∈ em.map Prod.fst := mem_keys_of_dictLookup h1
          have htx : tx ∉ inner.map Prod.fst := dictLookup_eq_none_iff.mp h2
          constructor
          · rw [map_fst_dictInsert_mem _ hkey]
            exact h.1
          · intro p hp
            rcases mem_dictInsert hp with hp | hp
            · subst hp
              constructor
              · rw [List.map_append]
                apply List.Nodup.append hinner.1 (by simp)
                intro x hx hx2
                have hxe : x = tx := by simpa using hx2
                exact htx (hxe ▸ hx)
              · intro i
                by_cases hi : i.val < inner.length
                · have hg : (inner ++ [(tx, replacingFormat et inner.length)]).get i =
                      inner.get ⟨i.val, hi⟩ := List.get_append i.val hi
                  rw [hg]
                  exact hinner.2 ⟨i.val, hi⟩
                · have hiv : i.val = inner.length := by
                    have hlt := i.isLt
                    simp only [List.length_append, List.length_cons,
                      List.length_nil] at hlt
                    omega
                  have hie : i = ⟨inner.length, by simp⟩ := by
                    apply Fin.ext
                    simpa using hiv
                  have hg : (inner ++ [(tx, replacingFormat et inner.length)]).get
                      ⟨inner.length, by simp⟩ = (tx, replacingFormat et inner.length) :=
                    List.get_of_append rfl rfl
                  rw [hie, hg]
            · exact h.2 p hp

theorem storeInv_runAlloc : ∀ (calls : List (Str × Str)) (em : EntityMapping),
    StoreInv em → StoreInv (runAlloc em calls) := by
  intro calls
  induction calls with
  | nil => intro em h; exact h
  | cons c rest ih =>
      intro em h
      exact ih _ (storeInv_allocate h c.1 c.2)

theorem lookupInner_some {em : EntityMapping} {et : Str} {inner : InnerMapping} (v : Str)
    (h : dictLookup em et = some inner) : lookupInner em et v = dictLookup inner v := by
  unfold lookupInner
  rw [h]

theorem lookupInner_none {em : EntityMapping} {et : Str} (v : Str)
    (h : dictLookup em et = none) : lookupInner em et v = none := by
  unfold lookupInner
  rw [h]

theorem lookupInner_allocate_self (em : EntityMapping) (et tx : Str) :
    lookupInner (allocate em et tx).2 et tx = some (allocate em et tx).1 := by
  cases h1 : dictLookup em et with
  | none =>
      rw [allocate_new_type tx h1]
      unfold lookupInner
      have hnm : et ∉ em.map Prod.fst := dictLookup_eq_none_iff.mp h1
      rw [← dictInsert_of_not_mem hnm, dictLookup_insert_self]
      simp [dictLookup]
  | some inner =>
      cases h2 : dictLookup inner tx with
      | some ph =>
          rw [allocate_dup h1 h2]
          unfold lookupInner
          rw [h1]
          exact h2
      | none =>
          rw [allocate_new_val h1 h2]
          rw [lookupInner_some tx (dictLookup_insert_self em et _)]
          rw [← dictInsert_of_not_mem (dictLookup_eq_none_iff.mp h2),
            dictLookup_insert_self]

theorem allocate_ph_format {em : EntityMapping} (h : StoreInv em) (et tx : Str) :
    ∃ i : Nat, (allocate em et tx).1 = replacingFormat et i := by
  cases h1 : dictLookup em et with
  | none =>
      rw [allocate_new_type tx h1]
      exact ⟨0, rfl⟩
  | some inner =>
      cases h2 : dictLookup inner tx with
      | some ph =>
          rw [allocate_dup h1 h2]
          have hmem : (tx, ph) ∈ inner := mem_of_dictLookup h2
          rcases List.mem_iff_get.mp hmem with ⟨i, hi⟩
          have hfmt := (h.2 (et, inner) (mem_of_dictLookup h1)).2 i
          rw [hi] at hfmt
          exact ⟨i.val, hfmt⟩
      | none =>
          rw [allocate_new_val h1 h2]
          exact ⟨inner.length, rfl⟩

theorem storeLe_refl (em : EntityMapping) : StoreLe em em := fun _ _ _ h => h

theorem storeLe_trans {a b c : EntityMapping} (h1 : StoreLe a b) (h2 : StoreLe b c) :
    StoreLe a c := fun et v ph h => h2 et v ph (h1 et v ph h)

theorem storeLe_allocate (em : EntityMapping) (et tx : Str) :
    StoreLe em (allocate em et tx).2 := by
  intro et' v ph hlk
  cases h1 : dictLookup em et with
  | none =>
      rw [allocate_new_type tx h1]
      unfold lookupInner at hlk ⊢
      by_cases he : et' = et
      · subst he
        rw [h1] at hlk
        exact Option.noConfusion hlk
      · rw [← dictInsert_of_not_mem (dictLookup_eq_none_iff.mp h1),
          dictLookup_insert_ne _ _ _ _ he]
        exact hlk
  | some inner =>
      cases h2 : dictLookup inner tx with
      | some ph2 =>
          rw [allocate_dup h1 h2]
          exact hlk
      | none =>
          rw [allocate_new_val h1 h2]
          by_cases he : et' = et
          · subst he
            rw [lookupInner_some v h1] at hlk
            rw [lookupInner_some v (dictLookup_insert_self em et' _)]
            by_cases hv : v = tx
            · subst hv
              rw [h2] at hlk
              exact Option.noConfusion hlk
            · rw [← dictInsert_of_not_mem (dictLookup_eq_none_iff.mp h2),
                dictLookup_insert_ne _ _ _ _ hv]
              exact hlk
          · unfold lookupInner
            rw [dictLookup_insert_ne _ _ _ _ he]
            exact hlk

theorem storeLe_runAlloc : ∀ (calls : List (Str × Str)) (em : EntityMapping),
    StoreLe em (runAlloc em calls) := by
  intro calls
  induction calls with
  | nil => intro em; exact storeLe_refl em
  | cons c rest ih =>
      intro em
      exact storeLe_trans (storeLe_allocate em c.1 c.2) (ih _)

theorem storeClean_nil : StoreClean [] := fun p hp => absurd hp (List.not_mem_nil p)

theorem storeClean_allocate {em : EntityMapping} (h : StoreClean em) {et tx : Str}
    (het1 : '<' ∉ et) (het2 : '>' ∉ et) (htx : '<' ∉ tx) :
    StoreClean (allocate em et tx).2 := by
  cases h1 : dictLookup em et with
  | none =>
      rw [allocate_new_type tx h1]
      intro p hp
      rcases List.mem_append.mp hp with hp | hp
      · exact h p hp
      · have hpe : p = (et, [(tx, replacingFormat et 0)]) := by simpa using hp
        subst hpe
        refine ⟨⟨het1, het2⟩, ?_⟩
        intro q hq
        have hqe : q = (tx, replacingFormat et 0) := by simpa using hq
        rw [hqe]
        exact htx
  | some inner =>
      cases h2 : dictLookup inner tx with
      | some ph =>
          rw [allocate_dup h1 h2]
          exact h
      | none =>
          rw [allocate_new_val h1 h2]
          intro p hp
          rcases mem_dictInsert hp with hp | hp
          · subst hp
            have hin := h (et, inner) (mem_of_dictLookup h1)
            refine ⟨⟨het1, het2⟩, ?_⟩
            intro q hq
            rcases List.mem_append.mp hq with hq | hq
            · exact hin.2 q hq
            · have hqe : q = (tx, replacingFormat et inner.length) := by simpa using hq
              rw [hqe]
              exact htx
          · exact h p hp

theorem storeClean_runAlloc : ∀ (calls : List (Str × Str)) (em : EntityMapping),
    StoreClean em → (∀ c ∈ calls, ('<' ∉ c.1 ∧ '>' ∉ c.1) ∧ '<' ∉ c.2) →
    StoreClean (runAlloc em calls) := by
  intro calls
  induction calls with
  | nil => intro em h _; exact h
  | cons c rest ih =>
      intro em h hc
      have hc0 := hc c (List.mem_cons_self _ _)
      exact ih _ (storeClean_allocate h hc0.1.1 hc0.1.2 hc0.2)
        (fun x hx => hc x (List.mem_cons_of_mem _ hx))

/-! ### Placeholder uniqueness and the flat reverse mapping -/

theorem flatRev_map_fst : ∀ em : EntityMapping, (flatRev em).map Prod.fst = phList em := by
  intro em
  induction em with
  | nil => rfl
  | cons p rest ih =>
      show (p.2.map (fun q => (q.2, q.1)) ++ flatRev rest).map Prod.fst = _
      rw [List.map_append, List.map_map, ih]
      show p.2.map (Prod.fst ∘ fun q => (q.2, q.1)) ++ _ = p.2.map Prod.snd ++ _
      congr 1

theorem mem_flatRev_of : ∀ {em : EntityMapping} {p : Str × InnerMapping}, p ∈ em →
    ∀ {q : Str × Str}, q ∈ p.2 → (q.2, q.1) ∈ flatRev em := by
  intro em
  induction em with
  | nil => intro p hp; exact absurd hp (List.not_mem_nil p)
  | cons p0 rest ih =>
      intro p hp q hq
      rcases List.mem_cons.mp hp with hp | hp
      · subst hp
        exact List.mem_append_left _ (List.mem_map_of_mem _ hq)
      · exact List.mem_append_right _ (ih hp hq)

theorem of_mem_flatRev : ∀ {em : EntityMapping} {x : Str × Str}, x ∈ flatRev em →
    ∃ p, p ∈ em ∧ (x.2, x.1) ∈ p.2 := by
  intro em
  induction em with
  | nil => intro x hx; exact absurd hx (List.not_mem_nil x)
  | cons p0 rest ih =>
      intro x hx
      rcases List.mem_append.mp hx with hx | hx
      · rcases List.mem_map.mp hx with ⟨q, hq, hqe⟩
        refine ⟨p0, List.mem_cons_self _ _, ?_⟩
        rw [← hqe]
        exact hq
      · rcases ih hx with ⟨p, hp1, hp2⟩
        exact ⟨p, List.mem_cons_of_mem _ hp1, hp2⟩

theorem inner_snd_nodup {et : Str} {inner : InnerMapping}
    (hfmt : ∀ i : Fin inner.length, (inner.get i).2 = replacingFormat et i.val) :
    (inner.map Prod.snd).Nodup := by
  have he : inner.map Prod.snd =
      List.ofFn (fun i : Fin inner.length => replacingFormat et i.val) := by
    rw [← List.ofFn_get_eq_map]
    congr 1
    funext i
    exact hfmt i
  rw [he, List.nodup_ofFn]
  intro i j hij
  exact Fin.ext (replacingFormat_inj hij).2

theorem storeInv_tail {p : Str × InnerMapping} {em : EntityMapping}
    (h : StoreInv (p :: em)) : StoreInv em := by
  constructor
  · have h1 := h.1
    rw [List.map_cons, List.nodup_cons] at h1
    exact h1.2
  · intro q hq
    exact h.2 q (List.mem_cons_of_mem _ hq)

theorem mem_phList : ∀ {em : EntityMapping} {x : Str}, x ∈ phList em →
    ∃ p, p ∈ em ∧ ∃ i : Fin p.2.length, (p.2.get i).2 = x := by
  intro em
  induction em with
  | nil => intro x hx; exact absurd hx (List.not_mem_nil x)
  | cons p0 rest ih =>
      intro x hx
      rcases List.mem_append.mp hx with hx | hx
      · rcases List.mem_map.mp hx with ⟨q, hq, hqe⟩
        rcases List.mem_iff_get.mp hq with ⟨i, hi⟩
        exact ⟨p0, List.mem_cons_self _ _, i, by rw [hi, hqe]⟩
      · rcases ih hx with ⟨p, hp, hi⟩
        exact ⟨p, List.mem_cons_of_mem _ hp, hi⟩

theorem phList_nodup : ∀ {em : EntityMapping}, StoreInv em → (phList em).Nodup := by
  intro em
  induction em with
  | nil => intro _; exact List.nodup_nil
  | cons p rest ih =>
      intro h
      show (p.2.map Prod.snd ++ phList rest).Nodup
      have hp := h.2 p (List.mem_cons_self _ _)
      apply List.Nodup.append (inner_snd_nodup hp.2) (ih (storeInv_tail h))
      intro x hx1 hx2
      rcases List.mem_map.mp hx1 with ⟨q, hq, hqe⟩
      rcases List.mem_iff_get.mp hq with ⟨i, hi⟩
      have hx1f : x = replacingFormat p.1 i.val := by
        have hfi := hp.2 i
        rw [hi] at hfi
        rw [← hqe]
        exact hfi
      rcases mem_phList hx2 with ⟨p2, hp2, j, hj⟩
      have hp2inv := h.2 p2 (List.mem_cons_of_mem _ hp2)
      have hx2f : x = replacingFormat p2.1 j.val := by
        rw [← hj]
        exact hp2inv.2 j
      have hne : p.1 ≠ p2.1 := by
        have h1 := h.1
        rw [List.map_cons, List.nodup_cons] at h1
        intro he
        apply h1.1
        rw [he]
        exact List.mem_map_of_mem Prod.fst hp2
      have heq : replacingFormat p.1 i.val = replacingFormat p2.1 j.val := by
        rw [← hx1f, hx2f]
      exact hne (replacingFormat_inj heq).1

theorem buildReverseMap_fold : ∀ (em : EntityMapping) (acc : List (Str × Str)),
    em.foldl (fun acc2 p => p.2.foldl (fun a q => dictInsert a q.2 q.1) acc2) acc =
    (flatRev em).foldl (fun a q => dictInsert a q.1 q.2) acc := by
  intro em
  induction em with
  | nil => intro acc; rfl
  | cons p rest ih =>
      intro acc
      show rest.foldl _ (p.2.foldl (fun a q => dictInsert a q.2 q.1) acc) = _
      rw [ih]
      show _ = (p.2.map (fun q => (q.2, q.1)) ++ flatRev rest).foldl _ acc
      rw [List.foldl_append]
      congr 1
      rw [List.foldl_map]

theorem foldl_dictInsert_fresh : ∀ (l acc : List (Str × Str)),
    (acc.map Prod.fst ++ l.map Prod.fst).Nodup →
    l.foldl (fun a q => dictInsert a q.1 q.2) acc = acc ++ l := by
  intro l
  induction l with
  | nil =>
      intro acc _
      show acc = acc ++ []
      rw [List.append_nil]
  | cons q l' ih =>
      intro acc hn
      obtain ⟨a, b⟩ := q
      rw [List.map_cons] at hn
      have hq1 : a ∉ acc.map Prod.fst := by
        intro hmem
        exact (List.nodup_append.mp hn).2.2 hmem (List.mem_cons_self _ _)
      have hn2 : ((acc ++ [(a, b)]).map Prod.fst ++ l'.map Prod.fst).Nodup := by
        rw [List.map_append, List.append_assoc]
        simpa using hn
      show l'.foldl _ (dictInsert acc a b) = acc ++ (a, b) :: l'
      rw [dictInsert_of_not_mem hq1, ih (acc ++ [(a, b)]) hn2,
        List.append_assoc, List.singleton_append]

theorem buildReverseMap_eq {em : EntityMapping} (h : StoreInv em) :
    buildReverseMap em = flatRev em := by
  unfold buildReverseMap
  rw [buildReverseMap_fold em []]
  have hn : (([] : List (Str × Str)).map Prod.fst ++ (flatRev em).map Prod.fst).Nodup := by
    rw [List.map_nil, List.nil_append, flatRev_map_fst]
    exact phList_nodup h
  rw [foldl_dictInsert_fresh (flatRev em) [] hn, List.nil_append]

theorem buildReverseMap_keys_nodup {em : EntityMapping} (h : StoreInv em) :
    ((buildReverseMap em).map Prod.fst).Nodup := by
  rw [buildReverseMap_eq h, flatRev_map_fst]
  exact phList_nodup h

theorem dictLookup_buildReverseMap {em : EntityMapping} (h : StoreInv em)
    {et v ph : Str} (hl : lookupInner em et v = some ph) :
    dictLookup (buildReverseMap em) ph = some v := by
  rw [buildReverseMap_eq h]
  have hn : ((flatRev em).map Prod.fst).Nodup := by
    rw [flatRev_map_fst]
    exact phList_nodup h
  apply dictLookup_of_mem_nodup hn
  cases hLem : dictLookup em et with
  | none =>
      rw [lookupInner_none v hLem] at hl
      exact Option.noConfusion hl
  | some inner =>
      rw [lookupInner_some v hLem] at hl
      exact mem_flatRev_of (mem_of_dictLookup hLem) (mem_of_dictLookup hl)

theorem buildReverseMap_entry {em : EntityMapping} (hInv : StoreInv em)
    (hCl : StoreClean em) : ∀ e ∈ buildReverseMap em, Shaped e.1 ∧ '<' ∉ e.2 := by
  intro e he
  rw [buildReverseMap_eq hInv] at he
  rcases of_mem_flatRev he with ⟨p, hp, hq⟩
  have hcl := hCl p hp
  have hinv := hInv.2 p hp
  rcases List.mem_iff_get.mp hq with ⟨i, hi⟩
  have hfmt := hinv.2 i
  rw [hi] at hfmt
  constructor
  · rw [show e.1 = replacingFormat p.1 i.val from hfmt]
    exact shaped_replacingFormat _ hcl.1.1 hcl.1.2
  · exact hcl.2 _ hq

/-! ### Spans and splicing of the raw text -/

theorem spansOk_cons {raw : Str} {pos : Nat} {d : Detection} {rest : List Detection}
    (h : spansOk raw pos (d :: rest) = true) :
    pos ≤ d.start ∧ d.start ≤ d.stop ∧ spansOk raw d.stop rest = true := by
  unfold spansOk at h
  rw [Bool.and_eq_true, Bool.and_eq_true] at h
  exact ⟨of_decide_eq_true h.1.1, of_decide_eq_true h.1.2, h.2⟩

theorem spansOk_le : ∀ {dets : List Detection} {raw : Str} {pos : Nat},
    spansOk raw pos dets = true → pos ≤ raw.length := by
  intro dets
  induction dets with
  | nil =>
      intro raw pos h
      unfold spansOk at h
      exact of_decide_eq_true h
  | cons d rest ih =>
      intro raw pos h
      obtain ⟨h1, h2, h3⟩ := spansOk_cons h
      exact Nat.le_trans h1 (Nat.le_trans h2 (ih h3))

theorem slice_drop_eq {s : Str} {a b : Nat} (h2 : a ≤ b) (h3 : b ≤ s.length) :
    sliceStr s a b ++ s.drop b = s.drop a := by
  unfold sliceStr
  have hlen : a ≤ (s.take b).length := by
    rw [List.length_take]
    exact Nat.le_min.mpr ⟨h2, Nat.le_trans h2 h3⟩
  conv_rhs => rw [← List.take_append_drop b s, List.drop_append_of_le_length hlen]

theorem slice_splice {s : Str} {pos a b : Nat} (h1 : pos ≤ a) (h2 : a ≤ b)
    (h3 : b ≤ s.length) :
    sliceStr s pos a ++ (sliceStr s a b ++ s.drop b) = s.drop pos := by
  rw [slice_drop_eq h2 h3, slice_drop_eq h1 (Nat.le_trans h2 h3)]

theorem mem_of_mem_slice {s : Str} {a b : Nat} {c : Char} (h : c ∈ sliceStr s a b) :
    c ∈ s := by
  unfold sliceStr at h
  exact List.take_subset b s (List.drop_subset a (s.take b) h)

theorem stepAll_false (rm : List (Str × Str)) (s : Str) :
    stepAll rm (false, s) = (false, s) := by
  unfold stepAll
  rw [if_neg (fun hh => Bool.noConfusion hh)]

theorem anonymizeFrom_spec : ∀ (dets : List Detection) (raw : Str) (pos : Nat)
    (em : EntityMapping),
    '<' ∉ raw →
    (∀ d ∈ dets, '<' ∉ d.entity_type ∧ '>' ∉ d.entity_type) →
    spansOk raw pos dets = true →
    StoreInv em → StoreClean em →
    StoreInv (anonymizeFrom raw pos em dets).2 ∧
    StoreClean (anonymizeFrom raw pos em dets).2 ∧
    StoreLe em (anonymizeFrom raw pos em dets).2 ∧
    ∃ ps : List Piece,
      (anonymizeFrom raw pos em dets).1 = flatPieces ps ∧ PiecesOk ps ∧
      ∀ rm : List (Str × Str),
        (∀ et v ph : Str, lookupInner (anonymizeFrom raw pos em dets).2 et v = some ph →
          dictLookup rm ph = some v) →
        flatPieces (ps.map (stepAll rm)) = raw.drop pos := by
  intro dets
  induction dets with
  | nil =>
      intro raw pos em hraw _ _ hInv hCl
      refine ⟨hInv, hCl, storeLe_refl em, [(false, raw.drop pos)], ?_, ?_, ?_⟩
      · show raw.drop pos = raw.drop pos ++ []
        rw [List.append_nil]
      · intro q hq
        have hqe : q = (false, raw.drop pos) := by simpa using hq
        subst hqe
        refine ⟨fun hh => Bool.noConfusion hh, fun _ hc => hraw (List.drop_subset pos raw hc)⟩
      · intro rm _
        rw [List.map_cons, List.map_nil, stepAll_false]
        show raw.drop pos ++ [] = raw.drop pos
        rw [List.append_nil]
  | cons d rest ih =>
      intro raw pos em hraw hdets hspan hInv hCl
      obtain ⟨hs1, hs2, hs3⟩ := spansOk_cons hspan
      have hd0 := hdets d (List.mem_cons_self _ _)
      have hdt : '<' ∉ sliceStr raw d.start d.stop :=
        fun hc => hraw (mem_of_mem_slice hc)
      have hInv1 := storeInv_allocate hInv d.entity_type (sliceStr raw d.start d.stop)
      have hCl1 := storeClean_allocate hCl hd0.1 hd0.2 hdt
      have hLe1 := storeLe_allocate em d.entity_type (sliceStr raw d.start d.stop)
      have hself := lookupInner_allocate_self em d.entity_type (sliceStr raw d.start d.stop)
      obtain ⟨iph, hph⟩ := allocate_ph_format hInv d.entity_type (sliceStr raw d.start d.stop)
      obtain ⟨hInv2, hCl2, hLe2, ps, hflat, hok, hfin⟩ :=
        ih raw d.stop (allocate em d.entity_type (sliceStr raw d.start d.stop)).2 hraw
          (fun x hx => hdets x (List.mem_cons_of_mem _ hx)) hs3 hInv1 hCl1
      have h1eq : (anonymizeFrom raw pos em (d :: rest)).1 =
          sliceStr raw pos d.start ++
            (allocate em d.entity_type (sliceStr raw d.start d.stop)).1 ++
            (anonymizeFrom raw d.stop
              (allocate em d.entity_type (sliceStr raw d.start d.stop)).2 rest).1 := rfl
      have h2eq : (anonymizeFrom raw pos em (d :: rest)).2 =
          (anonymizeFrom raw d.stop
            (allocate em d.entity_type (sliceStr raw d.start d.stop)).2 rest).2 := rfl
      rw [h1eq, h2eq]
      refine ⟨hInv2, hCl2, storeLe_trans hLe1 hLe2,
        (false, sliceStr raw pos d.start) ::
          (true, (allocate em d.entity_type (sliceStr raw d.start d.stop)).1) :: ps,
        ?_, ?_, ?_⟩
      · rw [hflat]
        show _ = sliceStr raw pos d.start ++ (_ ++ flatPieces ps)
        rw [List.append_assoc]
      · intro q hq
        rcases List.mem_cons.mp hq with hq | hq
        · subst hq
          exact ⟨fun hh => Bool.noConfusion hh,
            fun _ hc => hraw (mem_of_mem_slice hc)⟩
        · rcases List.mem_cons.mp hq with hq | hq
          · subst hq
            refine ⟨fun _ => ?_, fun hh => Bool.noConfusion hh⟩
            show Shaped (allocate em d.entity_type (sliceStr raw d.start d.stop)).1
            rw [hph]
            exact shaped_replacingFormat iph hd0.1 hd0.2
          · exact hok q hq
      · intro rm hrm
        have hph_lk : dictLookup rm
            (allocate em d.entity_type (sliceStr raw d.start d.stop)).1 =
            some (sliceStr raw d.start d.stop) :=
          hrm _ _ _ (hLe2 _ _ _ hself)
        rw [List.map_cons, List.map_cons, stepAll_false]
        have h2 : stepAll rm
            (true, (allocate em d.entity_type (sliceStr raw d.start d.stop)).1) =
            (false, sliceStr raw d.start d.stop) := by
          unfold stepAll
          rw [if_pos rfl, hph_lk]
        rw [h2]
        show sliceStr raw pos d.start ++
          (sliceStr raw d.start d.stop ++ flatPieces (ps.map (stepAll rm))) = raw.drop pos
        rw [hfin rm hrm]
        exact slice_splice hs1 hs2 (spansOk_le hs3)

/-! ### Claim theorems -/

/-- Claim C2: allocation is idempotent. If `original_value` already has an
entry in the store's inner mapping for `entity_type`, `operate` returns that
existing placeholder and leaves the store unchanged; and calling the
allocator twice with the same pair on one store returns the identical
placeholder and the identical store the second time. -/
theorem C2_allocate_idempotent :
    (∀ (em : EntityMapping) (et ov ph : Str),
      lookupInner em et ov = some ph → allocate em et ov = (ph, em)) ∧
    (∀ (em : EntityMapping) (et ov : Str),
      allocate (allocate em et ov).2 et ov = allocate em et ov) := by
  constructor
  · intro em et ov ph h
    cases hLem : dictLookup em et with
    | none =>
        rw [lookupInner_none ov hLem] at h
        exact Option.noConfusion h
    | some inner =>
        rw [lookupInner_some ov hLem] at h
        exact allocate_dup hLem h
  · intro em et ov
    have hself := lookupInner_allocate_self em et ov
    cases hLem : dictLookup (allocate em et ov).2 et with
    | none =>
        rw [lookupInner_none ov hLem] at hself
        exact Option.noConfusion hself
    | some inner =>
        rw [lookupInner_some ov hLem] at hself
        rw [allocate_dup hLem hself]

/-- Witness for C2 at a concrete store: the value `x` is already mapped for
type `A`, so the allocator returns the stored placeholder and the unchanged
store, and a double allocation from the empty store is stable. -/
theorem C2_allocate_idempotent_witness :
    allocate [(['A'], [(['x'], replacingFormat ['A'] 0)])] ['A'] ['x'] =
      (replacingFormat ['A'] 0, [(['A'], [(['x'], replacingFormat ['A'] 0)])]) ∧
    allocate (allocate [] ['A'] ['x']).2 ['A'] ['x'] = allocate [] ['A'] ['x'] :=
  ⟨C2_allocate_idempotent.1 [(['A'], [(['x'], replacingFormat ['A'] 0)])] ['A'] ['x']
      (replacingFormat ['A'] 0) (by decide),
   C2_allocate_idempotent.2 [] ['A'] ['x']⟩

/-- Claim C3: sequential indexing. In every store reachable from the empty
store, the entry at position `i` of the inner mapping of entity type `et`
carries the placeholder of index `i` (so the n-th distinct value of a type
receives index `n - 1`, however calls for other types are interleaved); a
fresh allocation uses the current size of the type's inner mapping as index;
and the placeholder's textual form is literally `<`, the entity type, `_`,
the decimal index, `>`. -/
theorem C3_sequential_indexing :
    (∀ (calls : List (Str × Str)) (et : Str) (inner : InnerMapping),
      dictLookup (runAlloc [] calls) et = some inner →
      ∀ i : Fin inner.length, (inner.get i).2 = replacingFormat et i.val) ∧
    (∀ (em : EntityMapping) (et ov : Str), lookupInner em et ov = none →
      (allocate em et ov).1 = replacingFormat et ((dictLookup em et).getD []).length) ∧
    (∀ (et : Str) (index : Nat),
      replacingFormat et index = '<' :: (et ++ '_' :: natRepr index) ++ ['>']) := by
  refine ⟨?_, ?_, fun _ _ => rfl⟩
  · intro calls et inner h i
    have hInv : StoreInv (runAlloc [] calls) := storeInv_runAlloc calls [] storeInv_nil
    exact (hInv.2 (et, inner) (mem_of_dictLookup h)).2 i
  · intro em et ov h
    cases hLem : dictLookup em et with
    | none =>
        rw [allocate_new_type ov hLem]
        rfl
    | some inner =>
        rw [lookupInner_some ov hLem] at h
        rw [allocate_new_val hLem h]
        rfl

/-- Witness for C3: after allocating `x` for `A`, `y` for `B` and `z` for
`A`, the second distinct `A` value sits at position 1 with index 1, and a
fresh allocation for `A` uses the store size 2 as its index. -/
theorem C3_sequential_indexing_witness :
    ([(['x'], replacingFormat ['A'] 0), (['z'], replacingFormat ['A'] 1)].get
        ⟨1, by decide⟩).2 = replacingFormat ['A'] 1 ∧
    (allocate (runAlloc [] [(['A'], ['x']), (['B'], ['y']), (['A'], ['z'])]) ['A'] ['w']).1 =
      replacingFormat ['A'] 2 :=
  ⟨C3_sequential_indexing.1 [(['A'], ['x']), (['B'], ['y']), (['A'], ['z'])] ['A']
      [(['x'], replacingFormat ['A'] 0), (['z'], replacingFormat ['A'] 1)] (by decide)
      ⟨1, by decide⟩,
   C3_sequential_indexing.2.1 (runAlloc [] [(['A'], ['x']), (['B'], ['y']), (['A'], ['z'])])
      ['A'] ['w'] (by decide)⟩

/-- Claim C7: missing-occurrence tolerance. A reverse-map entry whose
placeholder does not occur in the text is a no-op: its replacement step is
the identity, so the length is unchanged (and the total function raises no
error). -/
theorem C7_missing_occurrence :
    ∀ (em : EntityMapping) (tx ph v : Str), (ph, v) ∈ buildReverseMap em →
      containsSub tx ph = false →
      pyReplace tx ph v = tx ∧ (pyReplace tx ph v).length = tx.length := by
  intro em tx ph v _ h
  have he : pyReplace tx ph v = tx := pyReplace_of_not_contains h
  exact ⟨he, by rw [he]⟩

/-- Witness for C7: the store maps `x` to `<A_0>`, and replacing `<A_0>` in
the text `q`, which does not contain it, changes nothing. -/
theorem C7_missing_occurrence_witness :
    pyReplace ['q'] (replacingFormat ['A'] 0) ['x'] = ['q'] ∧
    (pyReplace ['q'] (replacingFormat ['A'] 0) ['x']).length = (['q'] : Str).length :=
  C7_missing_occurrence (runAlloc [] [(['A'], ['x'])]) ['q'] (replacingFormat ['A'] 0) ['x']
    (by decide) (by decide)

/-- Claim C8: empty-detection identity. With zero detections the forward
pass returns the raw text unchanged and an empty store. -/
theorem C8_empty_detections (raw : Str) : anonymize raw [] = (raw, []) := by
  unfold anonymize anonymizeFrom
  rw [List.drop_zero]

/-- Claim C9: allocator totality. With both required params present,
`operate` always succeeds, for every store, entity type and original value
(including values that look like placeholders); it raises an error exactly
when `entity_mapping` or `entity_type` is absent, and `validate` accepts
exactly the param dicts carrying both. -/
theorem C9_allocator_totality :
    (∀ (tx : Str) (em : EntityMapping) (et : Str),
      ∃ r, operate tx (some ⟨some em, some et⟩) = Except.ok r) ∧
    (∀ tx : Str, operate tx none = Except.error OpError.missingEntityMapping) ∧
    (∀ (tx : Str) (oet : Option Str),
      operate tx (some ⟨none, oet⟩) = Except.error OpError.missingEntityMapping) ∧
    (∀ (tx : Str) (em : EntityMapping),
      operate tx (some ⟨some em, none⟩) = Except.error OpError.missingEntityType) ∧
    (∀ p : Option Params,
      validate p = Except.ok () ↔ ∃ em et, p = some ⟨some em, some et⟩) := by
  refine ⟨operate_ne_error, fun _ => rfl, fun _ _ => rfl, fun _ _ => rfl, ?_⟩
  intro p
  constructor
  · intro h
    match p with
    | none => exact Except.noConfusion h
    | some ⟨none, oet⟩ => exact Except.noConfusion h
    | some ⟨some em, none⟩ => exact Except.noConfusion h
    | some ⟨some em, some et⟩ => exact ⟨em, et, rfl⟩
  · rintro ⟨em, et, rfl⟩
    rfl

/-- Claim C10: allocation frame property. An allocator call leaves the inner
mappings of all other entity types untouched, never removes or rewrites an
existing binding of its own type, changes that type's inner mapping by at
most appending one new entry, and the error branch (missing `entity_type`
while `entity_mapping` is present) returns an error without producing any
modified store. -/
theorem C10_allocate_frame :
    (∀ (em : EntityMapping) (et tx et' : Str), et' ≠ et →
      dictLookup (allocate em et tx).2 et' = dictLookup em et') ∧
    (∀ (em : EntityMapping) (et tx v ph : Str),
      lookupInner em et v = some ph → lookupInner (allocate em et tx).2 et v = some ph) ∧
    (∀ (em : EntityMapping) (et tx : Str),
      (dictLookup (allocate em et tx).2 et).getD [] = (dictLookup em et).getD [] ∨
      (dictLookup (allocate em et tx).2 et).getD [] =
        (dictLookup em et).getD [] ++ [(tx, (allocate em et tx).1)]) ∧
    (∀ (tx : Str) (em : EntityMapping),
      operate tx (some ⟨some em, none⟩) = Except.error OpError.missingEntityType) := by
  refine ⟨?_, ?_, ?_, fun _ _ => rfl⟩
  · intro em et tx et' hne
    cases h1 : dictLookup em et with
    | none =>
        rw [allocate_new_type tx h1,
          ← dictInsert_of_not_mem (dictLookup_eq_none_iff.mp h1),
          dictLookup_insert_ne _ _ _ _ hne]
    | some inner =>
        cases h2 : dictLookup inner tx with
        | some ph => rw [allocate_dup h1 h2]
        | none =>
            rw [allocate_new_val h1 h2, dictLookup_insert_ne _ _ _ _ hne]
  · intro em et tx v ph h
    exact storeLe_allocate em et tx et v ph h
  · intro em et tx
    cases h1 : dictLookup em et with
    | none =>
        right
        rw [allocate_new_type tx h1,
          ← dictInsert_of_not_mem (dictLookup_eq_none_iff.mp h1),
          dictLookup_insert_self]
        rfl
    | some inner =>
        cases h2 : dictLookup inner tx with
        | some ph =>
            left
            rw [allocate_dup h1 h2]
            show (dictLookup em et).getD [] = (some inner).getD []
            rw [h1]
        | none =>
            right
            rw [allocate_new_val h1 h2, dictLookup_insert_self]
            rfl

/-- Witness for C10: allocating `y` for type `B` leaves type `A`'s inner
mapping untouched, and allocating a new `A` value preserves the existing
`A` binding. -/
theorem C10_allocate_frame_witness :
    dictLookup (allocate [(['A'], [(['x'], replacingFormat ['A'] 0)])] ['B'] ['y']).2 ['A'] =
      dictLookup [(['A'], [(['x'], replacingFormat ['A'] 0)])] ['A'] ∧
    lookupInner (allocate [(['A'], [(['x'], replacingFormat ['A'] 0)])] ['A'] ['z']).2
      ['A'] ['x'] = some (replacingFormat ['A'] 0) :=
  ⟨C10_allocate_frame.1 [(['A'], [(['x'], replacingFormat ['A'] 0)])] ['B'] ['y'] ['A']
      (by decide),
   C10_allocate_frame.2.1 [(['A'], [(['x'], replacingFormat ['A'] 0)])] ['A'] ['z'] ['x']
      (replacingFormat ['A'] 0) (by decide)⟩

/-- Claim C4: placeholder uniqueness (Invariant I2). In every store reachable
from the empty store, two entries carrying the same placeholder are the same
entry (same entity type and same original value), and the flat reverse
mapping built by the reverse pass has pairwise-distinct keys. -/
theorem C4_placeholder_uniqueness :
    ∀ calls : List (Str × Str),
      (∀ (et1 : Str) (in1 : InnerMapping) (v1 ph1 : Str)
         (et2 : Str) (in2 : InnerMapping) (v2 ph2 : Str),
        (et1, in1) ∈ runAlloc [] calls → (v1, ph1) ∈ in1 →
        (et2, in2) ∈ runAlloc [] calls → (v2, ph2) ∈ in2 →
        ph1 = ph2 → et1 = et2 ∧ v1 = v2) ∧
      ((buildReverseMap (runAlloc [] calls)).map Prod.fst).Nodup := by
  intro calls
  have hInv : StoreInv (runAlloc [] calls) := storeInv_runAlloc calls [] storeInv_nil
  constructor
  · intro et1 in1 v1 ph1 et2 in2 v2 ph2 h1 h2 h3 h4 heq
    rcases List.mem_iff_get.mp h2 with ⟨i, hi⟩
    rcases List.mem_iff_get.mp h4 with ⟨j, hj⟩
    have hf1 := (hInv.2 (et1, in1) h1).2 i
    have hf2 := (hInv.2 (et2, in2) h3).2 j
    rw [hi] at hf1
    rw [hj] at hf2
    have hfmt : replacingFormat et1 i.val = replacingFormat et2 j.val := by
      rw [← hf1, ← hf2]
      show ph1 = ph2
      exact heq
    obtain ⟨het, hij⟩ := replacingFormat_inj hfmt
    refine ⟨het, ?_⟩
    have hin : in1 = in2 := by
      have e1 : dictLookup (runAlloc [] calls) et1 = some in1 :=
        dictLookup_of_mem_nodup hInv.1 h1
      have e2 : dictLookup (runAlloc [] calls) et2 = some in2 :=
        dictLookup_of_mem_nodup hInv.1 h3
      rw [← het, e1] at e2
      exact Option.some.inj e2
    subst hin
    have hij2 : i = j := Fin.ext hij
    rw [hij2, hj] at hi
    injection hi with ha _
    exact ha.symm
  · exact buildReverseMap_keys_nodup hInv

/-- Witness for C4: two allocations for types `P` and `L`; the uniqueness
conclusion holds at the `P` entry, and the reverse mapping of the resulting
store has distinct keys. -/
theorem C4_placeholder_uniqueness_witness :
    ((['P'] : Str) = ['P'] ∧ (['x'] : Str) = ['x']) ∧
    ((buildReverseMap (runAlloc [] [(['P'], ['x']), (['L'], ['y'])])).map Prod.fst).Nodup :=
  ⟨(C4_placeholder_uniqueness [(['P'], ['x']), (['L'], ['y'])]).1
      ['P'] [(['x'], replacingFormat ['P'] 0)] ['x'] (replacingFormat ['P'] 0)
      ['P'] [(['x'], replacingFormat ['P'] 0)] ['x'] (replacingFormat ['P'] 0)
      (by decide) (by decide) (by decide) (by decide) rfl,
   (C4_placeholder_uniqueness [(['P'], ['x']), (['L'], ['y'])]).2⟩

/-- Counterexample to claim C1 as stated. Raw text `<B_0>y` with two
detections tiling the whole text: type `A` over the span `<B_0>` and type
`B` over the span `y`. The forward pass yields `<A_0><B_0>` and the store
`{A: {<B_0>: <A_0>}, B: {y: <B_0>}}`; running the reverse pass on that very
output (no intervening edit) yields `yy`, so the span where `<A_0>` was
inserted is restored to `y` instead of the detected value `<B_0>` — the
detected value appears nowhere in the output. -/
theorem C1_roundtrip_counterexample :
    spansOk ("<B_0>y".data) 0 [⟨['A'], 0, 5⟩, ⟨['B'], 5, 6⟩] = true ∧
    sliceStr ("<B_0>y".data) 0 5 = "<B_0>".data ∧
    deanonymize_text (anonymize ("<B_0>y".data) [⟨['A'], 0, 5⟩, ⟨['B'], 5, 6⟩]).1
        (anonymize ("<B_0>y".data) [⟨['A'], 0, 5⟩, ⟨['B'], 5, 6⟩]).2 = "yy".data ∧
    "yy".data ≠ "<B_0>y".data ∧
    containsSub ("yy".data) ("<B_0>".data) = false := by
  refine ⟨by decide, by decide, by decide, by decide, by decide⟩

/-- Claim C1 (amended): the round-trip law holds provided the raw text
contains no `<` character (so it contains no placeholder-shaped token) and
the detections carry angle-bracket-free entity types and well-formed
(ordered, non-overlapping, in-bounds) spans: the reverse pass applied to the
forward pass's output with the forward pass's store restores the raw text
exactly — in particular every substituted span is restored to its original
detected value. -/
theorem C1_roundtrip_amended (raw : Str) (dets : List Detection)
    (hraw : '<' ∉ raw)
    (hdets : ∀ d ∈ dets, '<' ∉ d.entity_type ∧ '>' ∉ d.entity_type)
    (hspan : spansOk raw 0 dets = true) :
    deanonymize_text (anonymize raw dets).1 (anonymize raw dets).2 = raw := by
  obtain ⟨hInv, hCl, -, ps, hflat, hok, hfin⟩ :=
    anonymizeFrom_spec dets raw 0 [] hraw hdets hspan storeInv_nil storeClean_nil
  show applyReplacements (anonymizeFrom raw 0 [] dets).1
    (buildReverseMap (anonymizeFrom raw 0 [] dets).2) = raw
  rw [hflat, applyReplacements_flatPieces _ ps (buildReverseMap_entry hInv hCl) hok,
    hfin (buildReverseMap (anonymizeFrom raw 0 [] dets).2)
      (fun et v ph hl => dictLookup_buildReverseMap hInv hl),
    List.drop_zero]

/-- Witness for the amended C1: raw text `ab` with one detection of type `T`
over `a` anonymizes to `<T_0>b` and deanonymizes back to `ab`. -/
theorem C1_roundtrip_amended_witness :
    deanonymize_text (anonymize ['a', 'b'] [⟨['T'], 0, 1⟩]).1
      (anonymize ['a', 'b'] [⟨['T'], 0, 1⟩]).2 = ['a', 'b'] :=
  C1_roundtrip_amended ['a', 'b'] [⟨['T'], 0, 1⟩] (by decide) (by decide) (by decide)

theorem storeTypes_allocate {em : EntityMapping}
    (h : ∀ p ∈ em, '<' ∉ p.1 ∧ '>' ∉ p.1) {et : Str} (tx : Str)
    (het : '<' ∉ et ∧ '>' ∉ et) :
    ∀ p ∈ (allocate em et tx).2, '<' ∉ p.1 ∧ '>' ∉ p.1 := by
  cases h1 : dictLookup em et with
  | none =>
      rw [allocate_new_type tx h1]
      intro p hp
      rcases List.mem_append.mp hp with hp | hp
      · exact h p hp
      · have hpe : p = (et, [(tx, replacingFormat et 0)]) := by simpa using hp
        rw [hpe]
        exact het
  | some inner =>
      cases h2 : dictLookup inner tx with
      | some ph =>
          rw [allocate_dup h1 h2]
          exact h
      | none =>
          rw [allocate_new_val h1 h2]
          intro p hp
          rcases mem_dictInsert hp with hp | hp
          · rw [hp]
            exact het
          · exact h p hp

theorem storeTypes_runAlloc : ∀ (calls : List (Str × Str)) (em : EntityMapping),
    (∀ p ∈ em, '<' ∉ p.1 ∧ '>' ∉ p.1) →
    (∀ c ∈ calls, '<' ∉ c.1 ∧ '>' ∉ c.1) →
    ∀ p ∈ runAlloc em calls, '<' ∉ p.1 ∧ '>' ∉ p.1 := by
  intro calls
  induction calls with
  | nil => intro em h _; exact h
  | cons c rest ih =>
      intro em h hc
      exact ih _ (storeTypes_allocate h c.2 (hc c (List.mem_cons_self _ _)))
        (fun x hx => hc x (List.mem_cons_of_mem _ hx))

theorem buildReverseMap_key_shaped {em : EntityMapping} (hInv : StoreInv em)
    (hty : ∀ p ∈ em, '<' ∉ p.1 ∧ '>' ∉ p.1) :
    ∀ e ∈ buildReverseMap em, Shaped e.1 := by
  intro e he
  rw [buildReverseMap_eq hInv] at he
  rcases of_mem_flatRev he with ⟨p, hp, hq⟩
  have hcl := hty p hp
  have hinv := hInv.2 p hp
  rcases List.mem_iff_get.mp hq with ⟨i, hi⟩
  have hfmt := hinv.2 i
  rw [hi] at hfmt
  rw [show e.1 = replacingFormat p.1 i.val from hfmt]
  exact shaped_replacingFormat _ hcl.1 hcl.2

theorem applyReplacements_survive {T : Str} (hT : Shaped T) :
    ∀ (rm : List (Str × Str)) (t : Str),
      (∀ e ∈ rm, Shaped e.1 ∧ e.1 ≠ T) →
      (∃ a b, t = a ++ T ++ b) →
      ∃ a b, applyReplacements t rm = a ++ T ++ b := by
  intro rm
  induction rm with
  | nil =>
      intro t _ h
      exact h
  | cons e rm' ih =>
      rintro t hsh ⟨a, b, rfl⟩
      have he := hsh e (List.mem_cons_self _ _)
      obtain ⟨a1, b1, h1⟩ := pyReplace_survive hT he.1 he.2 a.length a b (le_refl _)
      show ∃ a' b', applyReplacements (pyReplace (a ++ T ++ b) e.1 e.2) rm' = _
      rw [h1]
      exact ih _ (fun x hx => hsh x (List.mem_cons_of_mem _ hx)) ⟨a1, b1, rfl⟩

/-- Counterexample to claim C6 as stated. The store is reachable by one
allocator call with entity type `x<PERSON_9`; its single placeholder is
`<x<PERSON_9_0>`. The input text equals that placeholder, and its maximal
suffix `<PERSON_9_0>` matches the placeholder syntax `<TYPE_index>` (type
`PERSON_9`, index 0) while not being a key of the reverse mapping — yet the
reverse pass rewrites the whole text to `v`, so the token does not appear
unchanged in the output. -/
theorem C6_unknown_counterexample :
    ("<PERSON_9_0>".data = replacingFormat ("PERSON_9".data) 0 ∧
      '<' ∉ "PERSON_9".data ∧ '>' ∉ "PERSON_9".data) ∧
    dictLookup (buildReverseMap (runAlloc [] [("x<PERSON_9".data, ['v'])]))
      ("<PERSON_9_0>".data) = none ∧
    containsSub ("<x<PERSON_9_0>".data) ("<PERSON_9_0>".data) = true ∧
    containsSub (deanonymize_text ("<x<PERSON_9_0>".data)
      (runAlloc [] [("x<PERSON_9".data, ['v'])])) ("<PERSON_9_0>".data) = false := by
  refine ⟨⟨by decide, by decide, by decide⟩, by decide, by decide, by decide⟩

/-- Claim C6 (amended): unknown-placeholder stability holds for stores whose
entity types are free of angle brackets. If a token of the placeholder
syntax `<TYPE_index>` (with an angle-bracket-free `TYPE`) occurs in the text
but is not a key of the reverse mapping of such a reachable store, the
reverse pass keeps an occurrence of the token intact in its output (and,
being a total function, raises no error). -/
theorem C6_unknown_stability_amended (calls : List (Str × Str)) (ty : Str) (idx : Nat)
    (a b : Str)
    (hcalls : ∀ c ∈ calls, '<' ∉ c.1 ∧ '>' ∉ c.1)
    (hty1 : '<' ∉ ty) (hty2 : '>' ∉ ty)
    (hnk : dictLookup (buildReverseMap (runAlloc [] calls)) (replacingFormat ty idx) = none) :
    ∃ a' b', deanonymize_text (a ++ replacingFormat ty idx ++ b) (runAlloc [] calls) =
      a' ++ replacingFormat ty idx ++ b' := by
  have hInv : StoreInv (runAlloc [] calls) := storeInv_runAlloc calls [] storeInv_nil
  have htys : ∀ p ∈ runAlloc [] calls, '<' ∉ p.1 ∧ '>' ∉ p.1 :=
    storeTypes_runAlloc calls [] (fun p hp => absurd hp (List.not_mem_nil p)) hcalls
  have hsh := buildReverseMap_key_shaped hInv htys
  have hT : Shaped (replacingFormat ty idx) := shaped_replacingFormat idx hty1 hty2
  have hneT : ∀ e ∈ buildReverseMap (runAlloc [] calls),
      Shaped e.1 ∧ e.1 ≠ replacingFormat ty idx := by
    intro e he
    refine ⟨hsh e he, fun hET => ?_⟩
    have hmem : replacingFormat ty idx ∈ (buildReverseMap (runAlloc [] calls)).map Prod.fst := by
      rw [← hET]
      exact List.mem_map_of_mem Prod.fst he
    exact (dictLookup_eq_none_iff.mp hnk) hmem
  exact applyReplacements_survive hT (buildReverseMap (runAlloc [] calls))
    (a ++ replacingFormat ty idx ++ b) hneT ⟨a, b, rfl⟩

/-- Witness for the amended C6: the store holds only `<A_0>`; the unmapped
token `<B_0>` inside `q<B_0>r` survives deanonymization. -/
theorem C6_unknown_stability_amended_witness :
    ∃ a' b', deanonymize_text (['q'] ++ replacingFormat ['B'] 0 ++ ['r'])
      (runAlloc [] [(['A'], ['v'])]) = a' ++ replacingFormat ['B'] 0 ++ b' :=
  C6_unknown_stability_amended [(['A'], ['v'])] ['B'] 0 ['q'] ['r']
    (by decide) (by decide) (by decide) (by decide)

/-- Counterexample to claim C5 as stated. The store is reachable by the
allocator calls `(A, v)` and `(x<A, w)`; its placeholders are `<A_0>` and
`<x<A_0>`, and the first is a literal substring of the second. Applying the
reverse mapping to the text `<x<A_0>` in the two opposite orders yields
different outputs (`<xv` versus `w`). -/
theorem C5_order_counterexample :
    (buildReverseMap (runAlloc [] [(['A'], ['v']), (['x', '<', 'A'], ['w'])])).reverse.Perm
      (buildReverseMap (runAlloc [] [(['A'], ['v']), (['x', '<', 'A'], ['w'])])) ∧
    applyReplacements ("<x<A_0>".data)
        ((buildReverseMap (runAlloc [] [(['A'], ['v']), (['x', '<', 'A'], ['w'])])).reverse) ≠
      applyReplacements ("<x<A_0>".data)
        (buildReverseMap (runAlloc [] [(['A'], ['v']), (['x', '<', 'A'], ['w'])])) :=
  ⟨List.reverse_perm _, by decide⟩

/-- Claim C5 (amended): substitution-order independence holds for stores
whose entity types are free of angle brackets and whose original values are
free of `<`, on texts decomposable into `<`-free literal segments and
placeholder-shaped tokens: applying the reverse mapping's pairs in any two
orders yields the same output. -/
theorem C5_order_amended (calls : List (Str × Str)) (ps : List Piece)
    (l1 l2 : List (Str × Str))
    (hcalls : ∀ c ∈ calls, ('<' ∉ c.1 ∧ '>' ∉ c.1) ∧ '<' ∉ c.2)
    (hps : PiecesOk ps)
    (h1 : l1.Perm (buildReverseMap (runAlloc [] calls)))
    (h2 : l2.Perm (buildReverseMap (runAlloc [] calls))) :
    applyReplacements (flatPieces ps) l1 = applyReplacements (flatPieces ps) l2 := by
  have hInv : StoreInv (runAlloc [] calls) := storeInv_runAlloc calls [] storeInv_nil
  have hCl : StoreClean (runAlloc [] calls) :=
    storeClean_runAlloc calls [] storeClean_nil hcalls
  have hent := buildReverseMap_entry hInv hCl
  have hnod := buildReverseMap_keys_nodup hInv
  have hent1 : ∀ e ∈ l1, Shaped e.1 ∧ '<' ∉ e.2 := fun e he => hent e (h1.mem_iff.mp he)
  have hent2 : ∀ e ∈ l2, Shaped e.1 ∧ '<' ∉ e.2 := fun e he => hent e (h2.mem_iff.mp he)
  have hn1 : (l1.map Prod.fst).Nodup := ((h1.map Prod.fst).nodup_iff).mpr hnod
  have hn2 : (l2.map Prod.fst).Nodup := ((h2.map Prod.fst).nodup_iff).mpr hnod
  rw [applyReplacements_flatPieces l1 ps hent1 hps,
    applyReplacements_flatPieces l2 ps hent2 hps]
  congr 1
  apply List.map_congr_left
  intro q _
  unfold stepAll
  by_cases hb : q.1 = true
  · rw [if_pos hb, if_pos hb, dictLookup_perm h1 hn1 q.2, dictLookup_perm h2 hn2 q.2]
  · rw [if_neg hb, if_neg hb]

/-- Witness for the amended C5: a two-entry store applied to the text
`q<A_0>` in list order and in reversed order gives the same output. -/
theorem C5_order_amended_witness :
    applyReplacements (flatPieces [(false, ['q']), (true, replacingFormat ['A'] 0)])
        (buildReverseMap (runAlloc [] [(['A'], ['v']), (['B'], ['w'])])) =
      applyReplacements (flatPieces [(false, ['q']), (true, replacingFormat ['A'] 0)])
        ((buildReverseMap (runAlloc [] [(['A'], ['v']), (['B'], ['w'])])).reverse) :=
  C5_order_amended [(['A'], ['v']), (['B'], ['w'])]
    [(false, ['q']), (true, replacingFormat ['A'] 0)]
    (buildReverseMap (runAlloc [] [(['A'], ['v']), (['B'], ['w'])]))
    ((buildReverseMap (runAlloc [] [(['A'], ['v']), (['B'], ['w'])])).reverse)
    (by decide)
    (by
      intro q hq
      rcases List.mem_cons.mp hq with hq | hq
      · rw [hq]
        exact ⟨fun hh => Bool.noConfusion hh, fun _ => by decide⟩
      · have hqe : q = (true, replacingFormat ['A'] 0) := by simpa using hq
        rw [hqe]
        exact ⟨fun _ => shaped_replacingFormat 0 (by decide) (by decide),
          fun hh => Bool.noConfusion hh⟩)
    (List.Perm.refl _)
    (List.reverse_perm _)
